import Mathlib

/-!
# Verification of the `dull` transactional filesystem engine

This file gives a shallow embedding of the core of the `dull` repository
(`src/transaction/primitives.rs`, `src/transaction/tx_builder.rs`,
`src/transaction/tx_apply.rs`, `src/transaction/tx_gen.rs`,
`src/transaction/tx_processor.rs`, `src/utils.rs`) and proves or refutes the
frozen claims about it.

Modelling conventions:

* A path is the list of its components below the filesystem root; the Rust
  `components().count()` of an absolute path is our `List.length` plus one
  (the `RootDir` component), a constant shift that never affects any ordering
  argument.
* A filesystem state is an association list from paths to entries
  (regular file with byte contents, symlink with a target path, directory).
  Lookup takes the first binding; erasure removes every binding of a key.
  States are compared extensionally (`FsEq`, `EqOutside`).
* POSIX syscalls used by the source (`symlink`, `remove_file`, `remove_dir`,
  `create_dir_all`, `fs::copy`, `symlink_metadata`, `metadata`,
  `canonicalize`, `try_exists`) are modelled over these states.  Symlink
  chains are resolved with the POSIX `SYMLOOP_MAX`-style fuel of 40; states
  are considered with directory components being actual directories
  (intermediate symlink resolution in parent components is not modelled).
* Fallible operations return `Except String` together with the (possibly
  partially mutated) state, so the order of effects inside one primitive is
  observable, as in the source.
* Rust's per-call random tokens (`rand::thread_rng().gen::<u32>()`) are
  threaded explicitly as `String` arguments.
-/

/-- A filesystem path: the list of components below the root. -/
abbrev FsPath : Type := List String

/-- A filesystem entry: regular file with contents, symlink with target,
or directory. -/
inductive Entry : Type where
  | file (contents : List Nat)
  | symlink (target : FsPath)
  | dir
deriving DecidableEq, Repr

instance {ε α : Type} [DecidableEq ε] [DecidableEq α] : DecidableEq (Except ε α) := fun a b =>
  match a, b with
  | Except.error e1, Except.error e2 =>
    if h : e1 = e2 then isTrue (by rw [h]) else
      isFalse (by intro hc; injection hc; contradiction)
  | Except.error _, Except.ok _ => isFalse (by intro hc; exact Except.noConfusion hc)
  | Except.ok _, Except.error _ => isFalse (by intro hc; exact Except.noConfusion hc)
  | Except.ok a1, Except.ok a2 =>
    if h : a1 = a2 then isTrue (by rw [h]) else
      isFalse (by intro hc; injection hc; contradiction)

/-- A filesystem state: an association list from paths to entries. -/
abbrev Fs : Type := List (FsPath × Entry)

/-- First-binding lookup in an association list keyed by paths. -/
def alLookup {α : Type} : List (FsPath × α) → FsPath → Option α
  | [], _ => none
  | (k, v) :: rest, p => if k = p then some v else alLookup rest p

/-- Remove every binding of a key from an association list. -/
def alErase {α : Type} : List (FsPath × α) → FsPath → List (FsPath × α)
  | [], _ => []
  | (k, v) :: rest, p => if k = p then alErase rest p else (k, v) :: alErase rest p

/-- `HashMap::insert`: replace any old binding of the key (modelled by
erasing it and appending the new binding). -/
def alInsert {α : Type} (l : List (FsPath × α)) (p : FsPath) (v : α) : List (FsPath × α) :=
  alErase l p ++ [(p, v)]

/-- Create an entry in a filesystem state (the path is known to be absent,
so a plain cons suffices). -/
def insertFs (fs : Fs) (p : FsPath) (e : Entry) : Fs :=
  (p, e) :: fs

/-- Remove an entry from a filesystem state. -/
def eraseFs (fs : Fs) (p : FsPath) : Fs :=
  alErase fs p

/-- Boolean path-prefix test (components, from the root). -/
def pfx : FsPath → FsPath → Bool
  | [], _ => true
  | _ :: _, [] => false
  | a :: as, b :: bs => decide (a = b) && pfx as bs

/-- The parent path (`FsPath::parent`, total: the root is its own parent). -/
def parentPath (p : FsPath) : FsPath :=
  p.dropLast

/-- `FsPath::ancestors`: the path itself, then its parents up to the root
(structurally, the reversed tails of the reversed path). -/
def ancestorsList (p : FsPath) : List FsPath :=
  p.reverse.tails.map List.reverse

/-- Resolve a symlink chain with fuel, returning the final existing path.
`none` on a missing entry, a dangling link or a symlink loop (`ELOOP`). -/
def resolvePath (fs : Fs) : Nat → FsPath → Option FsPath
  | 0, _ => none
  | fuel + 1, p =>
    match alLookup fs p with
    | some (Entry.symlink t) => resolvePath fs fuel t
    | some _ => some p
    | none => none

/-- POSIX `SYMLOOP_MAX`-style resolution fuel. -/
def maxSymlinkFuel : Nat := 40

/-- `std::fs::canonicalize`: fully resolve a path; errors (`none`) when the
resolution does not reach an existing non-link entry. -/
def canonicalizeFs (fs : Fs) (p : FsPath) : Option FsPath :=
  resolvePath fs maxSymlinkFuel p

/-- `std::fs::metadata`-style resolution to the final entry (follows links). -/
def resolveEntry (fs : Fs) (p : FsPath) : Option Entry :=
  (canonicalizeFs fs p).bind (alLookup fs)

/-- `FsPath::try_exists`: follows symlinks; `false` for absent paths and
dangling links. -/
def tryExistsB (fs : Fs) (p : FsPath) : Bool :=
  (canonicalizeFs fs p).isSome

/-- `FsPath::is_symlink`: no-follow test that the entry is a symlink. -/
def isSymlinkFs (fs : Fs) (p : FsPath) : Bool :=
  match alLookup fs p with
  | some (Entry.symlink _) => true
  | _ => false

/-- `FsPath::is_file`: follows symlinks, tests for a regular file. -/
def isFileFs (fs : Fs) (p : FsPath) : Bool :=
  match resolveEntry fs p with
  | some (Entry.file _) => true
  | _ => false

/-- Does a directory have an entry directly inside it? -/
def hasChild (fs : Fs) (p : FsPath) : Bool :=
  fs.any fun kv => decide (kv.1 ≠ p) && decide (parentPath kv.1 = p)

/-- `symlink(original, target)`: fails if `target` exists (no-follow) or the
parent of `target` is not a directory; otherwise creates the link. -/
def symlinkSyscall (original target : FsPath) (fs : Fs) : Except String Fs :=
  if (alLookup fs target).isSome then Except.error "could not link: target exists"
  else if alLookup fs (parentPath target) = some Entry.dir then
    Except.ok (insertFs fs target (Entry.symlink original))
  else Except.error "could not link: no parent directory"

/-- `std::fs::remove_file` (unlink): fails on absent paths and directories. -/
def removeFileSyscall (p : FsPath) (fs : Fs) : Except String Fs :=
  match alLookup fs p with
  | none => Except.error "could not remove file: no entry"
  | some Entry.dir => Except.error "could not remove file: is a directory"
  | some _ => Except.ok (eraseFs fs p)

/-- `std::fs::remove_dir`: fails unless the path is an existing empty
directory. -/
def removeDirSyscall (p : FsPath) (fs : Fs) : Except String Fs :=
  match alLookup fs p with
  | none => Except.error "could not remove dir: no entry"
  | some Entry.dir =>
    if hasChild fs p then Except.error "could not remove dir: not empty"
    else Except.ok (eraseFs fs p)
  | some _ => Except.error "could not remove dir: not a directory"

/-- One step of `create_dir_all`: walk the given ancestor chain from the root
down, creating the missing directories and failing on a non-directory
component. -/
def createDirAllAux : List FsPath → Fs → Except String Fs
  | [], fs => Except.ok fs
  | a :: rest, fs =>
    match alLookup fs a with
    | some Entry.dir => createDirAllAux rest fs
    | some _ => Except.error "could not create: non-directory in the way"
    | none => createDirAllAux rest (insertFs fs a Entry.dir)

/-- `std::fs::create_dir_all`. -/
def createDirAll (p : FsPath) (fs : Fs) : Except String Fs :=
  createDirAllAux (ancestorsList p).reverse fs

/-- `std::fs::copy`: resolve the source to a regular file and write its bytes
at the target (the caller has checked that the target does not resolve). -/
def copyFileSyscall (source target : FsPath) (fs : Fs) : Except String Fs :=
  match resolveEntry fs source with
  | some (Entry.file c) =>
    match alLookup fs target with
    | some (Entry.symlink _) => Except.error "could not copy file: target is a link"
    | some Entry.dir => Except.error "could not copy file: target is a directory"
    | _ =>
      if alLookup fs (parentPath target) = some Entry.dir then
        Except.ok (insertFs (eraseFs fs target) target (Entry.file c))
      else Except.error "could not copy file: no parent directory"
  | _ => Except.error "could not copy file: bad source"

/-- `utils::copy_file_or_symlink` (src/utils.rs lines 52-69): bail when the
target resolves; re-link canonicalized symlink sources, byte-copy regular
files. -/
def copyFileOrSymlink (source target : FsPath) (fs : Fs) : Except String Fs :=
  if (canonicalizeFs fs target).isSome then Except.error "target exists"
  else if isSymlinkFs fs source then
    match canonicalizeFs fs source with
    | none => Except.error "could not canonicalize"
    | some canon => symlinkSyscall canon target fs
  else copyFileSyscall source target fs

/-- The primitive filesystem mutations of `src/transaction/primitives.rs`
(`tx_builder.rs` spells the directory-creation variant `CreateDir`). -/
inductive FsPrimitive : Type where
  | Link (original target : FsPath)
  | CopyFile (source target : FsPath)
  | RemoveFile (p : FsPath)
  | RemoveDir (p : FsPath)
  | TryCreateDirs (p : FsPath)
  | Nop
deriving DecidableEq, Repr

/-- `FsPrimitive::apply` (src/transaction/primitives.rs lines 47-102):
apply the primitive, returning its inverse and the new state; on error the
state reflects the effects performed before the failure.  `backupName`
stands for the per-call random token. -/
def applyPrim (prim : FsPrimitive) (backupDir : Option FsPath) (backupName : String)
    (fs : Fs) : Except String FsPrimitive × Fs :=
  match prim with
  | FsPrimitive.Link original target =>
    match symlinkSyscall original target fs with
    | Except.error e => (Except.error e, fs)
    | Except.ok fs1 => (Except.ok (FsPrimitive.RemoveFile target), fs1)
  | FsPrimitive.CopyFile source target =>
    if (alLookup fs target).isSome then (Except.error "file already exists", fs)
    else
      match copyFileOrSymlink source target fs with
      | Except.error e => (Except.error e, fs)
      | Except.ok fs1 => (Except.ok (FsPrimitive.RemoveFile target), fs1)
  | FsPrimitive.RemoveFile p =>
    match backupDir with
    | some bd =>
      let backup := bd ++ [backupName]
      match copyFileOrSymlink p backup fs with
      | Except.error e => (Except.error e, fs)
      | Except.ok fs1 =>
        match removeFileSyscall p fs1 with
        | Except.error e => (Except.error e, fs1)
        | Except.ok fs2 => (Except.ok (FsPrimitive.CopyFile backup p), fs2)
    | none =>
      match removeFileSyscall p fs with
      | Except.error e => (Except.error e, fs)
      | Except.ok fs2 => (Except.ok FsPrimitive.Nop, fs2)
  | FsPrimitive.RemoveDir p =>
    match removeDirSyscall p fs with
    | Except.error e => (Except.error e, fs)
    | Except.ok fs1 => (Except.ok (FsPrimitive.TryCreateDirs p), fs1)
  | FsPrimitive.TryCreateDirs p =>
    if (alLookup fs p).isSome then (Except.ok FsPrimitive.Nop, fs)
    else
      let firstCreatedDir := (ancestorsList p).find? fun a => ! tryExistsB fs a
      match createDirAll p fs with
      | Except.error e => (Except.error e, fs)
      | Except.ok fs1 =>
        match firstCreatedDir with
        | some d => (Except.ok (FsPrimitive.RemoveDir d), fs1)
        | none => (Except.ok FsPrimitive.Nop, fs1)
  | FsPrimitive.Nop => (Except.ok FsPrimitive.Nop, fs)

/-- Well-formed state: the root is a directory and every entry below the
root sits in a directory. -/
def WF (fs : Fs) : Prop :=
  alLookup fs [] = some Entry.dir ∧
    ∀ kv ∈ fs, kv.1 ≠ [] → alLookup fs (parentPath kv.1) = some Entry.dir

instance : DecidablePred WF := by
  intro fs
  unfold WF
  infer_instance

/-- Extensional equality of filesystem states. -/
def FsEq (fs1 fs2 : Fs) : Prop :=
  ∀ q : FsPath, alLookup fs1 q = alLookup fs2 q

/-- Extensional equality outside the subtree rooted at `bd` (the backup
directory that a transaction owns). -/
def EqOutside (bd : FsPath) (fs1 fs2 : Fs) : Prop :=
  ∀ q : FsPath, pfx bd q = false → alLookup fs1 q = alLookup fs2 q

/-! ## Basic lemmas about the association-list operations -/

theorem alLookup_eraseFs {α : Type} (l : List (FsPath × α)) (p q : FsPath) :
    alLookup (alErase l p) q = if p = q then none else alLookup l q := by
  induction l with
  | nil => simp [alErase, alLookup]
  | cons kv rest ih =>
    obtain ⟨k, v⟩ := kv
    by_cases hkp : k = p
    · by_cases hpq : p = q
      · simp [alErase, alLookup, hkp, hpq, ih]
        simp_all
      · simp [alErase, alLookup, hkp, hpq, ih]
    · by_cases hkq : k = q
      · subst hkq
        simp [alErase, alLookup, hkp, ih]
        exact fun h => absurd h.symm hkp
      · simp [alErase, alLookup, hkp, hkq, ih]

theorem alLookup_append {α : Type} (l1 l2 : List (FsPath × α)) (q : FsPath) :
    alLookup (l1 ++ l2) q = ((alLookup l1 q).or (alLookup l2 q)) := by
  induction l1 with
  | nil => simp [alLookup]
  | cons kv rest ih =>
    by_cases h : kv.1 = q <;> simp [alLookup, h, ih]

theorem alLookup_alInsert {α : Type} (l : List (FsPath × α)) (p q : FsPath) (v : α) :
    alLookup (alInsert l p v) q = if p = q then some v else alLookup l q := by
  unfold alInsert
  rw [alLookup_append, alLookup_eraseFs]
  by_cases h : p = q <;> simp [h, alLookup]

theorem alLookup_insertFs (fs : Fs) (p q : FsPath) (e : Entry) :
    alLookup (insertFs fs p e) q = if p = q then some e else alLookup fs q := by
  simp [insertFs, alLookup]

theorem alLookup_some_mem {α : Type} {l : List (FsPath × α)} {p : FsPath} {v : α}
    (h : alLookup l p = some v) : (p, v) ∈ l := by
  induction l with
  | nil => simp [alLookup] at h
  | cons kv rest ih =>
    by_cases hk : kv.1 = p
    · simp [alLookup, hk] at h
      apply List.mem_cons.mpr
      exact Or.inl (by obtain ⟨k, w⟩ := kv; simp_all)
    · simp [alLookup, hk] at h
      exact List.mem_cons_of_mem _ (ih h)

theorem mem_alLookup_isSome {α : Type} {l : List (FsPath × α)} {p : FsPath} {v : α}
    (h : (p, v) ∈ l) : (alLookup l p).isSome := by
  induction l with
  | nil => simp at h
  | cons kv rest ih =>
    rcases List.mem_cons.mp h with h1 | h2
    · simp [alLookup, ← h1]
    · by_cases hk : kv.1 = p <;> simp [alLookup, hk, ih h2]

theorem alErase_keys_subset {α : Type} {l : List (FsPath × α)} {p : FsPath} {kv : FsPath × α}
    (h : kv ∈ alErase l p) : kv ∈ l := by
  induction l with
  | nil => simp [alErase] at h
  | cons kw rest ih =>
    by_cases hk : kw.1 = p
    · obtain ⟨k, w⟩ := kw
      simp only [alErase] at h
      rw [if_pos hk] at h
      exact List.mem_cons_of_mem _ (ih h)
    · obtain ⟨k, w⟩ := kw
      simp only [alErase] at h
      rw [if_neg hk] at h
      rcases List.mem_cons.mp h with h1 | h2
      · exact h1 ▸ List.mem_cons_self _ _
      · exact List.mem_cons_of_mem _ (ih h2)

/-! ## Lemmas about paths, prefixes and ancestors -/

theorem pfx_refl (p : FsPath) : pfx p p = true := by
  induction p with
  | nil => rfl
  | cons x rest ih => simp [pfx, ih]

theorem pfx_append (p q : FsPath) : pfx p (p ++ q) = true := by
  induction p with
  | nil => rfl
  | cons x rest ih => simp [pfx, ih]

theorem pfx_iff_exists {p q : FsPath} : pfx p q = true ↔ ∃ r, q = p ++ r := by
  constructor
  · intro h
    induction p generalizing q with
    | nil => exact ⟨q, rfl⟩
    | cons x rest ih =>
      cases q with
      | nil => simp [pfx] at h
      | cons y q2 =>
        simp [pfx] at h
        obtain ⟨r, hr⟩ := ih h.2
        exact ⟨r, by simp [h.1, hr]⟩
  · rintro ⟨r, rfl⟩
    exact pfx_append p r

theorem pfx_length_lt {p q : FsPath} (h : pfx p q = true) (hne : p ≠ q) :
    p.length < q.length := by
  obtain ⟨r, rfl⟩ := pfx_iff_exists.mp h
  cases r with
  | nil => simp at hne
  | cons a r2 => simp

theorem pfx_length_le {p q : FsPath} (h : pfx p q = true) : p.length ≤ q.length := by
  obtain ⟨r, rfl⟩ := pfx_iff_exists.mp h
  simp

theorem ancestorsList_nil : ancestorsList [] = [[]] := rfl

theorem ancestorsList_eq_cons (x : String) (rest : List String) :
    ancestorsList (x :: rest) = (x :: rest) :: ancestorsList ((x :: rest).dropLast) := by
  unfold ancestorsList
  have h1 : (x :: rest).reverse =
      ((x :: rest).getLast (by simp)) :: ((x :: rest).dropLast).reverse := by
    conv_lhs => rw [← List.dropLast_append_getLast (l := x :: rest) (by simp)]
    rw [List.reverse_append]
    rfl
  rw [h1, List.tails_cons, List.map_cons, ← h1]
  simp

theorem self_mem_ancestorsList (p : FsPath) : p ∈ ancestorsList p := by
  cases p with
  | nil => simp [ancestorsList]
  | cons x rest => rw [ancestorsList_eq_cons]; exact List.mem_cons_self _ _

theorem pfx_trans {a b c : FsPath} (h1 : pfx a b = true) (h2 : pfx b c = true) :
    pfx a c = true := by
  obtain ⟨r1, rfl⟩ := pfx_iff_exists.mp h1
  obtain ⟨r2, rfl⟩ := pfx_iff_exists.mp h2
  rw [List.append_assoc]
  exact pfx_append _ _

theorem pfx_dropLast (p : FsPath) : pfx p.dropLast p = true := by
  cases p with
  | nil => rfl
  | cons x rest =>
    have h := List.dropLast_append_getLast (l := x :: rest) (by simp)
    exact pfx_iff_exists.mpr ⟨[(x :: rest).getLast (by simp)], h.symm⟩

theorem mem_ancestorsList_pfx {p a : FsPath} (h : a ∈ ancestorsList p) : pfx a p = true := by
  suffices H : ∀ n (p a : FsPath), p.length ≤ n → a ∈ ancestorsList p → pfx a p = true from
    H p.length p a le_rfl h
  intro n
  induction n with
  | zero =>
    intro p a hlen ha
    rw [List.length_eq_zero.mp (Nat.le_zero.mp hlen)] at ha ⊢
    rw [ancestorsList_nil] at ha
    simp at ha
    simp [ha, pfx]
  | succ n ih =>
    intro p a hlen ha
    cases p with
    | nil =>
      rw [ancestorsList_nil] at ha
      simp at ha
      simp [ha, pfx]
    | cons x rest =>
      rw [ancestorsList_eq_cons] at ha
      rcases List.mem_cons.mp ha with h1 | h2
      · subst h1; exact pfx_refl _
      · have hlen2 : ((x :: rest).dropLast).length ≤ n := by
          simp [List.length_dropLast] at hlen ⊢
          omega
        exact pfx_trans (ih _ a hlen2 h2) (pfx_dropLast _)

theorem resolvePath_lookup_none {fs : Fs} {p : FsPath} (h : alLookup fs p = none) :
    ∀ fuel, resolvePath fs fuel p = none := by
  intro fuel
  cases fuel with
  | zero => rfl
  | succ n => simp [resolvePath, h]

theorem resolvePath_lookup_plain {fs : Fs} {p : FsPath} {e : Entry}
    (h : alLookup fs p = some e) (he : ∀ t, e ≠ Entry.symlink t) (fuel : Nat) :
    resolvePath fs (fuel + 1) p = some p := by
  cases e with
  | file c => simp [resolvePath, h]
  | symlink t => exact absurd rfl (he t)
  | dir => simp [resolvePath, h]

/-! ## Well-formedness -/

theorem WF.lookup_parent {fs : Fs} (hwf : WF fs) {p : FsPath} {e : Entry}
    (h : alLookup fs p = some e) (hne : p ≠ []) :
    alLookup fs (parentPath p) = some Entry.dir := by
  exact hwf.2 (p, e) (alLookup_some_mem h) hne

/-- Every proper ancestor of an existing path is a directory. -/
theorem WF.ancestors_dirs {fs : Fs} (hwf : WF fs) {p : FsPath}
    (h : (alLookup fs p).isSome) :
    ∀ a ∈ ancestorsList p, a ≠ p → alLookup fs a = some Entry.dir := by
  suffices H : ∀ n (p : FsPath), p.length ≤ n → (alLookup fs p).isSome →
      ∀ a ∈ ancestorsList p, a ≠ p → alLookup fs a = some Entry.dir from
    H p.length p le_rfl h
  clear h
  intro n
  induction n with
  | zero =>
    intro p hlen h a ha hne
    rw [List.length_eq_zero.mp (Nat.le_zero.mp hlen)] at ha hne
    rw [ancestorsList_nil] at ha
    simp at ha
    exact absurd ha hne
  | succ n ih =>
    intro p hlen h a ha hne
    cases p with
    | nil =>
      rw [ancestorsList_nil] at ha
      simp at ha
      exact absurd ha hne
    | cons x rest =>
      obtain ⟨e, he⟩ := Option.isSome_iff_exists.mp h
      have hpar : alLookup fs (parentPath (x :: rest)) = some Entry.dir :=
        hwf.lookup_parent he (by simp)
      rw [ancestorsList_eq_cons] at ha
      rcases List.mem_cons.mp ha with h1 | h2
      · exact absurd h1 hne
      · by_cases hap : a = (x :: rest).dropLast
        · exact hap ▸ hpar
        · have hlen2 : ((x :: rest).dropLast).length ≤ n := by
            simp [List.length_dropLast] at hlen ⊢
            omega
          have hps : (alLookup fs ((x :: rest).dropLast)).isSome := by
            simp only [parentPath] at hpar
            simp [hpar]
          exact ih _ hlen2 hps a h2 hap

/-! ## Characterization of `create_dir_all` -/

theorem createDirAllAux_preserves_some {l : List FsPath} {fs fs1 : Fs} {q : FsPath} {e : Entry}
    (h : createDirAllAux l fs = Except.ok fs1) (hq : alLookup fs q = some e) :
    alLookup fs1 q = some e := by
  induction l generalizing fs with
  | nil => simp [createDirAllAux] at h; exact h ▸ hq
  | cons a rest ih =>
    simp only [createDirAllAux] at h
    cases ha : alLookup fs a with
    | none =>
      rw [ha] at h
      have hne : a ≠ q := fun hc => by rw [hc, hq] at ha; exact Option.noConfusion ha
      exact ih h (by rw [alLookup_insertFs]; simp [hne, hq])
    | some e2 =>
      cases e2 with
      | dir => rw [ha] at h; exact ih h hq
      | file c => rw [ha] at h; exact Except.noConfusion h
      | symlink t => rw [ha] at h; exact Except.noConfusion h

theorem createDirAllAux_ensures {l : List FsPath} {fs fs1 : Fs}
    (h : createDirAllAux l fs = Except.ok fs1) :
    ∀ a ∈ l, alLookup fs1 a = some Entry.dir := by
  induction l generalizing fs with
  | nil => simp
  | cons a rest ih =>
    intro b hb
    simp only [createDirAllAux] at h
    cases ha : alLookup fs a with
    | none =>
      rw [ha] at h
      rcases List.mem_cons.mp hb with h1 | h2
      · subst h1
        exact createDirAllAux_preserves_some h (by rw [alLookup_insertFs]; simp)
      · exact ih h b h2
    | some e2 =>
      cases e2 with
      | dir =>
        rw [ha] at h
        rcases List.mem_cons.mp hb with h1 | h2
        · subst h1; exact createDirAllAux_preserves_some h ha
        · exact ih h b h2
      | file c => rw [ha] at h; exact Except.noConfusion h
      | symlink t => rw [ha] at h; exact Except.noConfusion h

theorem createDirAllAux_outside {l : List FsPath} {fs fs1 : Fs}
    (h : createDirAllAux l fs = Except.ok fs1) :
    ∀ q, q ∉ l → alLookup fs1 q = alLookup fs q := by
  induction l generalizing fs with
  | nil => simp [createDirAllAux] at h; intro q _; rw [h]
  | cons a rest ih =>
    intro q hq
    have hqa : q ≠ a := fun hc => hq (hc ▸ List.mem_cons_self _ _)
    have hqr : q ∉ rest := fun hc => hq (List.mem_cons_of_mem _ hc)
    simp only [createDirAllAux] at h
    cases ha : alLookup fs a with
    | none =>
      rw [ha] at h
      rw [ih h q hqr, alLookup_insertFs]
      rw [if_neg (fun hc : a = q => hqa hc.symm)]
    | some e2 =>
      cases e2 with
      | dir => rw [ha] at h; exact ih h q hqr
      | file c => rw [ha] at h; exact Except.noConfusion h
      | symlink t => rw [ha] at h; exact Except.noConfusion h

theorem createDirAllAux_all_dirs {l : List FsPath} {fs : Fs}
    (h : ∀ a ∈ l, alLookup fs a = some Entry.dir) :
    createDirAllAux l fs = Except.ok fs := by
  induction l with
  | nil => rfl
  | cons a rest ih =>
    simp only [createDirAllAux, h a (List.mem_cons_self _ _)]
    exact ih fun b hb => h b (List.mem_cons_of_mem _ hb)

theorem createDirAllAux_append (l1 l2 : List FsPath) (fs : Fs) :
    createDirAllAux (l1 ++ l2) fs =
      match createDirAllAux l1 fs with
      | Except.ok fs1 => createDirAllAux l2 fs1
      | Except.error e => Except.error e := by
  induction l1 generalizing fs with
  | nil => simp [createDirAllAux]
  | cons a rest ih =>
    simp only [List.cons_append, createDirAllAux]
    cases ha : alLookup fs a with
    | none => exact ih _
    | some e2 => cases e2 <;> simp [ih]

/-- When the path is absent but all its proper ancestors are directories,
`create_dir_all` creates exactly the one directory. -/
theorem createDirAll_missing_one {fs : Fs} {p : FsPath}
    (hnone : alLookup fs p = none)
    (hanc : ∀ a ∈ ancestorsList p, a ≠ p → alLookup fs a = some Entry.dir) :
    createDirAll p fs = Except.ok (insertFs fs p Entry.dir) := by
  cases hp : p with
  | nil =>
    subst hp
    unfold createDirAll
    simp [ancestorsList, createDirAllAux, hnone]
  | cons x rest =>
    subst hp
    unfold createDirAll
    rw [ancestorsList_eq_cons, List.reverse_cons, createDirAllAux_append]
    have h1 : createDirAllAux (ancestorsList ((x :: rest).dropLast)).reverse fs = Except.ok fs := by
      apply createDirAllAux_all_dirs
      intro a ha
      rw [List.mem_reverse] at ha
      apply hanc a
      · rw [ancestorsList_eq_cons]
        exact List.mem_cons_of_mem _ ha
      · intro hc
        subst hc
        have h2 := pfx_length_le (mem_ancestorsList_pfx ha)
        have h3 : (x :: rest).length = rest.length + 1 := by simp
        have h4 : ((x :: rest).dropLast).length = rest.length := by simp
        rw [h3, h4] at h2
        omega
    rw [h1]
    simp [createDirAllAux, hnone]

/-- The head of the ancestor list is the path itself. -/
theorem ancestorsList_head (p : FsPath) :
    ∃ t, ancestorsList p = p :: t := by
  cases p with
  | nil => exact ⟨[], ancestorsList_nil⟩
  | cons x rest => exact ⟨_, ancestorsList_eq_cons x rest⟩


theorem copyFileOrSymlink_ok_shape {s t : FsPath} {fs fs1 : Fs}
    (h : copyFileOrSymlink s t fs = Except.ok fs1) :
    canonicalizeFs fs t = none ∧ (canonicalizeFs fs s).isSome ∧
      ∃ ent, ent ≠ Entry.dir ∧
        ∀ q, alLookup fs1 q = if t = q then some ent else alLookup fs q := by
  unfold copyFileOrSymlink at h
  by_cases hc0 : (canonicalizeFs fs t).isSome
  · rw [if_pos hc0] at h
    exact absurd h (by simp)
  rw [if_neg hc0] at h
  have hc : canonicalizeFs fs t = none := Option.not_isSome_iff_eq_none.mp hc0
  refine ⟨hc, ?_⟩
  by_cases hsym : isSymlinkFs fs s
  · rw [if_pos hsym] at h
    cases hcs : canonicalizeFs fs s with
    | none => rw [hcs] at h; exact absurd h (by simp)
    | some canon =>
      rw [hcs] at h
      simp only [symlinkSyscall] at h
      refine ⟨by simp, ?_⟩
      by_cases hex : (alLookup fs t).isSome
      · rw [if_pos hex] at h
        exact absurd h (by simp)
      rw [if_neg hex] at h
      by_cases hpar : alLookup fs (parentPath t) = some Entry.dir
      · rw [if_pos hpar] at h
        injection h with h
        subst h
        refine ⟨Entry.symlink canon, by simp, ?_⟩
        intro q
        rw [alLookup_insertFs]
      · rw [if_neg hpar] at h
        exact absurd h (by simp)
  · rw [if_neg hsym] at h
    unfold copyFileSyscall at h
    cases hre : resolveEntry fs s with
    | none => rw [hre] at h; exact absurd h (by simp)
    | some ent0 =>
      rw [hre] at h
      have hcss : (canonicalizeFs fs s).isSome := by
        unfold resolveEntry at hre
        cases hcc : canonicalizeFs fs s with
        | none => rw [hcc] at hre; simp at hre
        | some cc => simp
      cases ent0 with
      | symlink t2 => simp at h
      | dir => simp at h
      | file c =>
        simp only at h
        refine ⟨hcss, ?_⟩
        cases hte : alLookup fs t with
        | some e2 =>
          cases e2 with
          | symlink t3 => rw [hte] at h; simp at h
          | dir => rw [hte] at h; simp at h
          | file c2 =>
            exfalso
            have hct : canonicalizeFs fs t = some t := by
              unfold canonicalizeFs maxSymlinkFuel
              exact resolvePath_lookup_plain hte (by simp) 39
            rw [hc] at hct
            exact Option.noConfusion hct
        | none =>
          rw [hte] at h
          simp only at h
          by_cases hpar : alLookup fs (parentPath t) = some Entry.dir
          · rw [if_pos hpar] at h
            injection h with h
            subst h
            refine ⟨Entry.file c, by simp, ?_⟩
            intro q
            rw [alLookup_insertFs]
            by_cases hq : t = q
            · simp [hq]
            · simp only [if_neg hq]
              unfold eraseFs
              rw [alLookup_eraseFs]
              simp [hq]
          · rw [if_neg hpar] at h
            exact absurd h (by simp)

/-- A successful `copy_file_or_symlink` has distinct source and target. -/
theorem copyFileOrSymlink_ok_ne {s t : FsPath} {fs fs1 : Fs}
    (h : copyFileOrSymlink s t fs = Except.ok fs1) : s ≠ t := by
  obtain ⟨hct, hcs, _⟩ := copyFileOrSymlink_ok_shape h
  intro hst
  rw [hst, hct] at hcs
  simp at hcs

theorem resolvePath_symlink_step {fs : Fs} {p t : FsPath} (h : alLookup fs p = some (Entry.symlink t))
    (n : Nat) : resolvePath fs (n + 1) p = resolvePath fs n t := by
  simp [resolvePath, h]

/-! ## Claim C4: the directory-creation primitive -/

/-- **C4, counterexample.** The claim says `TryCreateDirs p` fails when `p`
exists and otherwise creates exactly one directory.  On the code, applying it
to an existing path succeeds as a no-op returning `Nop`, and applying it to
`a/b` with `a` missing also creates the ancestor `a`. -/
theorem c4_counterexample :
    applyPrim (FsPrimitive.TryCreateDirs ["d"]) (some ["bk"]) "n"
        [([], Entry.dir), (["d"], Entry.dir)] =
      (Except.ok FsPrimitive.Nop, [([], Entry.dir), (["d"], Entry.dir)]) ∧
    applyPrim (FsPrimitive.TryCreateDirs ["a", "b"]) (some ["bk"]) "n" [([], Entry.dir)] =
      (Except.ok (FsPrimitive.RemoveDir ["a", "b"]),
        [(["a", "b"], Entry.dir), (["a"], Entry.dir), ([], Entry.dir)]) ∧
    alLookup [(["a", "b"], Entry.dir), (["a"], Entry.dir), ([], Entry.dir)] ["a"] =
      some Entry.dir := by
  refine ⟨by decide, by decide, by decide⟩

/-- **C4** (amended): applying the directory-creation primitive
`TryCreateDirs p` succeeds as a no-op with inverse `Nop` when `p` exists (by
the no-follow test); when `p` is absent it creates `p` together with every
missing ancestor (it does not fail and does not create only one directory)
and returns `RemoveDir p` as its inverse. -/
theorem c4_amended (fs : Fs) (p : FsPath) (bdo : Option FsPath) (bn : String) :
    ((alLookup fs p).isSome →
      applyPrim (FsPrimitive.TryCreateDirs p) bdo bn fs = (Except.ok FsPrimitive.Nop, fs)) ∧
    (alLookup fs p = none → ∀ fs1, createDirAll p fs = Except.ok fs1 →
      applyPrim (FsPrimitive.TryCreateDirs p) bdo bn fs =
          (Except.ok (FsPrimitive.RemoveDir p), fs1) ∧
        (∀ a ∈ ancestorsList p, alLookup fs1 a = some Entry.dir) ∧
        (∀ q, q ∉ ancestorsList p → alLookup fs1 q = alLookup fs q)) := by
  constructor
  · intro h
    simp [applyPrim, h]
  · intro hnone fs1 hcd
    have hfind : (ancestorsList p).find? (fun a => ! tryExistsB fs a) = some p := by
      obtain ⟨tl, htl⟩ := ancestorsList_head p
      rw [htl]
      have : tryExistsB fs p = false := by
        unfold tryExistsB canonicalizeFs
        rw [resolvePath_lookup_none hnone]
        rfl
      simp [List.find?, this]
    refine ⟨?_, ?_, ?_⟩
    · simp only [applyPrim, hnone, hfind, hcd]
      rfl
    · intro a ha
      exact createDirAllAux_ensures hcd a (by rwa [List.mem_reverse])
    · intro q hq
      exact createDirAllAux_outside hcd q (by rwa [List.mem_reverse])

theorem c4_witness :
    applyPrim (FsPrimitive.TryCreateDirs ["d"]) (some ["bk"]) "n"
        [([], Entry.dir), (["d"], Entry.dir)] =
      (Except.ok FsPrimitive.Nop, [([], Entry.dir), (["d"], Entry.dir)]) ∧
    applyPrim (FsPrimitive.TryCreateDirs ["a", "b"]) (some ["bk"]) "n" [([], Entry.dir)] =
      (Except.ok (FsPrimitive.RemoveDir ["a", "b"]),
        [(["a", "b"], Entry.dir), (["a"], Entry.dir), ([], Entry.dir)]) :=
  ⟨(c4_amended [([], Entry.dir), (["d"], Entry.dir)] ["d"] (some ["bk"]) "n").1 (by decide),
    ((c4_amended [([], Entry.dir)] ["a", "b"] (some ["bk"]) "n").2 (by decide)
      [(["a", "b"], Entry.dir), (["a"], Entry.dir), ([], Entry.dir)] (by decide)).1⟩

/-! ## Claim C10: `RemoveFile` backs up before unlinking -/

/-- **C10** (confirmed): with a backup directory, `RemoveFile p` performs the
backup copy before unlinking, so on any error the entry at `p` is untouched;
and when `p` is a symlink whose referent does not exist, the apply always
errors, because backing up a symlink canonicalizes it and canonicalization
fails on a dangling symlink. -/
theorem c10_backup_before_unlink (fs : Fs) (bd : FsPath) (bn : String) (p : FsPath) :
    (∀ e fs1, applyPrim (FsPrimitive.RemoveFile p) (some bd) bn fs = (Except.error e, fs1) →
      alLookup fs1 p = alLookup fs p) ∧
    (∀ t, alLookup fs p = some (Entry.symlink t) → alLookup fs t = none →
      ∃ e fs1, applyPrim (FsPrimitive.RemoveFile p) (some bd) bn fs = (Except.error e, fs1) ∧
        alLookup fs1 p = some (Entry.symlink t)) := by
  constructor
  · intro e fs1 happ
    simp only [applyPrim] at happ
    split at happ
    next e2 hcp =>
      simp only [Prod.mk.injEq] at happ
      rw [← happ.2]
    next fsx hcp =>
      split at happ
      next e3 hrm =>
        simp only [Prod.mk.injEq] at happ
        rw [← happ.2]
        obtain ⟨_, _, ent, _, hlook⟩ := copyFileOrSymlink_ok_shape hcp
        rw [hlook p, if_neg ?_]
        exact fun hc => copyFileOrSymlink_ok_ne hcp hc.symm
      next fs2 hrm => simp at happ
  · intro t hp ht
    cases hcb : canonicalizeFs fs (bd ++ [bn]) with
    | some c =>
      refine ⟨"target exists", fs, ?_, hp⟩
      simp [applyPrim, copyFileOrSymlink, hcb]
    | none =>
      refine ⟨"could not canonicalize", fs, ?_, hp⟩
      have hsym : isSymlinkFs fs p = true := by simp [isSymlinkFs, hp]
      have hcanp : canonicalizeFs fs p = none := by
        unfold canonicalizeFs maxSymlinkFuel
        have h40 : (40 : Nat) = 39 + 1 := rfl
        rw [h40, resolvePath_symlink_step hp]
        exact resolvePath_lookup_none ht 39
      simp [applyPrim, copyFileOrSymlink, hcb, hsym, hcanp]

theorem c10_witness :
    ∃ e fs1,
      applyPrim (FsPrimitive.RemoveFile ["p"]) (some ["bk"]) "n"
          [([], Entry.dir), (["bk"], Entry.dir), (["p"], Entry.symlink ["gone"])] =
        (Except.error e, fs1) ∧
      alLookup fs1 ["p"] = some (Entry.symlink ["gone"]) :=
  (c10_backup_before_unlink
      [([], Entry.dir), (["bk"], Entry.dir), (["p"], Entry.symlink ["gone"])]
      ["bk"] "n" ["p"]).2 ["gone"] (by decide) (by decide)

/-! ## The planner (`TxBuilder`, src/transaction/tx_builder.rs) -/

/-- Stable insertion into a list sorted ascending by a `Nat` key. -/
def insertSorted {α : Type} (key : α → Nat) (x : α) : List α → List α
  | [] => [x]
  | y :: ys => if key x ≤ key y then x :: y :: ys else y :: insertSorted key x ys

/-- Stable sort ascending by a `Nat` key (itertools `sorted_by_key`). -/
def sortByKey {α : Type} (key : α → Nat) : List α → List α
  | [] => []
  | x :: xs => insertSorted key x (sortByKey key xs)

/-- The planner state: four `HashMap<PathBuf, FsPrimitive>` buckets, modelled
as association lists (the bucket iteration order taken as insertion order;
no claim depends on `HashMap` iteration order because `build` sorts). -/
structure TxBuilder where
  filesToCreate : List (FsPath × FsPrimitive)
  filesToRemove : List (FsPath × FsPrimitive)
  dirsToCreate : List (FsPath × FsPrimitive)
  dirsToRemove : List (FsPath × FsPrimitive)
deriving DecidableEq, Repr

/-- `TxBuilder::empty`. -/
def TxBuilder.emptyB : TxBuilder := ⟨[], [], [], []⟩

/-- `TxBuilder::push` (src/transaction/tx_builder.rs lines 47-74; the
directory-creation arm is spelled `CreateDir` there). -/
def TxBuilder.push (b : TxBuilder) (p : FsPrimitive) : TxBuilder :=
  match p with
  | FsPrimitive.Link _ target =>
    { b with filesToRemove := alErase b.filesToRemove target,
             filesToCreate := alInsert b.filesToCreate target p }
  | FsPrimitive.CopyFile _ target =>
    { b with filesToRemove := alErase b.filesToRemove target,
             filesToCreate := alInsert b.filesToCreate target p }
  | FsPrimitive.RemoveFile target =>
    { b with filesToCreate := alErase b.filesToCreate target,
             filesToRemove := alInsert b.filesToRemove target p }
  | FsPrimitive.RemoveDir target =>
    { b with dirsToCreate := alErase b.dirsToCreate target,
             dirsToRemove := alInsert b.dirsToRemove target p }
  | FsPrimitive.TryCreateDirs target =>
    { b with dirsToRemove := alErase b.dirsToRemove target,
             dirsToCreate := alInsert b.dirsToCreate target p }
  | FsPrimitive.Nop => b

/-- `TxBuilder::will_create_dir`. -/
def TxBuilder.will_create_dir (b : TxBuilder) (p : FsPath) : Bool :=
  (alLookup b.dirsToCreate p).isSome

/-- `TxBuilder::link`. -/
def TxBuilder.link (b : TxBuilder) (original target : FsPath) : TxBuilder :=
  b.push (FsPrimitive.Link original target)

/-- `TxBuilder::copy_file`. -/
def TxBuilder.copy_file (b : TxBuilder) (source target : FsPath) : TxBuilder :=
  b.push (FsPrimitive.CopyFile source target)

/-- `TxBuilder::remove_file`. -/
def TxBuilder.remove_file (b : TxBuilder) (target : FsPath) : TxBuilder :=
  b.push (FsPrimitive.RemoveFile target)

/-- `TxBuilder::create_dir`. -/
def TxBuilder.create_dir (b : TxBuilder) (target : FsPath) : TxBuilder :=
  b.push (FsPrimitive.TryCreateDirs target)

/-- `TxBuilder::remove_dir`. -/
def TxBuilder.remove_dir (b : TxBuilder) (target : FsPath) : TxBuilder :=
  b.push (FsPrimitive.RemoveDir target)

/-- The key used by `build`: `dir.components().count()` (our component-list
length, shifted by the constant `RootDir` component). -/
def keyLen (kv : FsPath × FsPrimitive) : Nat :=
  kv.1.length

/-- The ordered primitive list of `TxBuilder::build` (src/transaction/
tx_builder.rs lines 126-157): dirs to create and files to create sorted by
depth ascending, then files to remove and dirs to remove sorted by depth
descending (`sorted_by_key(...).rev()`). -/
def TxBuilder.buildPrims (b : TxBuilder) : List FsPrimitive :=
  (sortByKey keyLen b.dirsToCreate).map Prod.snd ++
    (sortByKey keyLen b.filesToCreate).map Prod.snd ++
    ((sortByKey keyLen b.filesToRemove).reverse).map Prod.snd ++
    ((sortByKey keyLen b.dirsToRemove).reverse).map Prod.snd

/-- The target path a primitive acts on (`Nop` has none). -/
def targetOf : FsPrimitive → Option FsPath
  | FsPrimitive.Link _ t => some t
  | FsPrimitive.CopyFile _ t => some t
  | FsPrimitive.RemoveFile t => some t
  | FsPrimitive.RemoveDir t => some t
  | FsPrimitive.TryCreateDirs t => some t
  | FsPrimitive.Nop => none

/-! ## The generator `remove_dir_all` (src/transaction/tx_gen.rs) -/

/-- `WalkDir::new(root)` without following symlinks: every stored path with
`root` as a prefix (the walk of a missing root yields nothing). -/
def walkPaths (fs : Fs) (root : FsPath) : List FsPath :=
  (fs.map Prod.fst).filter fun q => pfx root q

/-- `TxBuilder::remove_dir_all` (src/transaction/tx_gen.rs lines 16-43):
bail unless the target is a directory, then push removal primitives for the
walked entries, deepest first. -/
def TxBuilder.remove_dir_all (b : TxBuilder) (target : FsPath) (fs : Fs) :
    Except String TxBuilder :=
  if isSymlinkFs fs target || isFileFs fs target then
    Except.error "target is not a directory"
  else
    Except.ok (((sortByKey List.length (walkPaths fs target)).reverse).foldl
      (fun bb inner =>
        if isSymlinkFs fs inner || isFileFs fs inner then bb.remove_file inner
        else bb.remove_dir inner) b)

theorem pfx_mem_ancestorsList {a p : FsPath} (h : pfx a p = true) : a ∈ ancestorsList p := by
  obtain ⟨r, rfl⟩ := pfx_iff_exists.mp h
  unfold ancestorsList
  rw [List.mem_map]
  refine ⟨a.reverse, ?_, by simp⟩
  rw [List.mem_tails, List.reverse_append]
  exact ⟨r.reverse, rfl⟩

/-! ## Claim C9: error behavior of `remove_dir_all` -/

/-- **C9** (confirmed): `remove_dir_all(target)` errors exactly when the
entry at `target` is a regular file or a symlink, and when no entry exists
at `target` at all it succeeds and leaves the planner unchanged. -/
theorem c9_remove_dir_all_err (fs : Fs) (b : TxBuilder) (t : FsPath) (hwf : WF fs) :
    ((∃ err, TxBuilder.remove_dir_all b t fs = Except.error err) ↔
      (∃ c, alLookup fs t = some (Entry.file c)) ∨
        (∃ q, alLookup fs t = some (Entry.symlink q))) ∧
    (alLookup fs t = none → TxBuilder.remove_dir_all b t fs = Except.ok b) := by
  have hcond : (isSymlinkFs fs t || isFileFs fs t) = true ↔
      (∃ c, alLookup fs t = some (Entry.file c)) ∨
        (∃ q, alLookup fs t = some (Entry.symlink q)) := by
    cases hlt : alLookup fs t with
    | none =>
      have hres : canonicalizeFs fs t = none := resolvePath_lookup_none hlt _
      simp [isSymlinkFs, isFileFs, resolveEntry, hlt, hres]
    | some e =>
      have hsome : ∀ he : (∀ q2, e ≠ Entry.symlink q2), canonicalizeFs fs t = some t := by
        intro he
        unfold canonicalizeFs maxSymlinkFuel
        exact resolvePath_lookup_plain hlt he 39
      cases e with
      | file c => simp [isSymlinkFs, isFileFs, resolveEntry, hlt, hsome (by simp)]
      | dir => simp [isSymlinkFs, isFileFs, resolveEntry, hlt, hsome (by simp)]
      | symlink q => simp [isSymlinkFs, hlt]
  constructor
  · constructor
    · rintro ⟨err, herr⟩
      unfold TxBuilder.remove_dir_all at herr
      by_cases hc : (isSymlinkFs fs t || isFileFs fs t) = true
      · exact hcond.mp hc
      · rw [if_neg hc] at herr
        exact Except.noConfusion herr
    · intro hrhs
      exact ⟨_, by unfold TxBuilder.remove_dir_all; rw [if_pos (hcond.mpr hrhs)]⟩
  · intro hnone
    have hcf : (isSymlinkFs fs t || isFileFs fs t) = false := by
      rcases Bool.eq_false_or_eq_true (isSymlinkFs fs t || isFileFs fs t) with h | h
      · rcases hcond.mp h with ⟨c, hc⟩ | ⟨q, hq⟩
        · rw [hnone] at hc; exact Option.noConfusion hc
        · rw [hnone] at hq; exact Option.noConfusion hq
      · exact h
    have hwalk : walkPaths fs t = [] := by
      unfold walkPaths
      rw [List.filter_eq_nil_iff]
      intro q hq
      intro hpfx
      obtain ⟨kv, hmem, hq2⟩ := List.mem_map.mp hq
      have hmem2 : (q, kv.2) ∈ fs := by rw [← hq2]; exact hmem
      have hsome := mem_alLookup_isSome hmem2
      by_cases hqt : t = q
      · subst hqt
        rw [hnone] at hsome
        simp at hsome
      · have := hwf.ancestors_dirs hsome t (pfx_mem_ancestorsList hpfx) hqt
        rw [hnone] at this
        exact Option.noConfusion this
    unfold TxBuilder.remove_dir_all
    rw [if_neg (by simp [hcf]), hwalk]
    rfl

theorem c9_witness :
    TxBuilder.remove_dir_all TxBuilder.emptyB ["x"] [([], Entry.dir)] =
        Except.ok TxBuilder.emptyB ∧
      ∃ err, TxBuilder.remove_dir_all TxBuilder.emptyB ["f"]
          [([], Entry.dir), (["f"], Entry.file [1])] = Except.error err :=
  ⟨(c9_remove_dir_all_err [([], Entry.dir)] TxBuilder.emptyB ["x"] (by decide)).2 (by decide),
    (c9_remove_dir_all_err [([], Entry.dir), (["f"], Entry.file [1])] TxBuilder.emptyB ["f"]
        (by decide)).1.mpr (Or.inl ⟨[1], by decide⟩)⟩

/-! ## Planner invariants -/

theorem alErase_mem_ne {α : Type} {l : List (FsPath × α)} {p : FsPath} {kv : FsPath × α}
    (h : kv ∈ alErase l p) : kv.1 ≠ p := by
  induction l with
  | nil => simp [alErase] at h
  | cons kw rest ih =>
    obtain ⟨k, w⟩ := kw
    simp only [alErase] at h
    by_cases hk : k = p
    · rw [if_pos hk] at h
      exact ih h
    · rw [if_neg hk] at h
      rcases List.mem_cons.mp h with h1 | h2
      · rw [h1]; exact hk
      · exact ih h2

theorem alErase_sublist {α : Type} (l : List (FsPath × α)) (p : FsPath) :
    (alErase l p).Sublist l := by
  induction l with
  | nil => simp [alErase]
  | cons kw rest ih =>
    obtain ⟨k, w⟩ := kw
    simp only [alErase]
    by_cases hk : k = p
    · rw [if_pos hk]
      exact ih.cons _
    · rw [if_neg hk]
      exact ih.cons₂ _

theorem key_mem_iff {α : Type} {l : List (FsPath × α)} {q : FsPath} :
    q ∈ l.map Prod.fst ↔ (alLookup l q).isSome := by
  constructor
  · intro h
    obtain ⟨kv, hkv, hq⟩ := List.mem_map.mp h
    exact mem_alLookup_isSome (v := kv.2) (by rw [← hq]; exact hkv)
  · intro h
    obtain ⟨v, hv⟩ := Option.isSome_iff_exists.mp h
    exact List.mem_map.mpr ⟨(q, v), alLookup_some_mem hv, rfl⟩

theorem nodupKeys_alErase {α : Type} {l : List (FsPath × α)} {p : FsPath}
    (h : (l.map Prod.fst).Nodup) : ((alErase l p).map Prod.fst).Nodup :=
  h.sublist ((alErase_sublist l p).map Prod.fst)

theorem nodupKeys_alInsert {α : Type} {l : List (FsPath × α)} {p : FsPath} {v : α}
    (h : (l.map Prod.fst).Nodup) : ((alInsert l p v).map Prod.fst).Nodup := by
  unfold alInsert
  rw [List.map_append]
  refine (nodupKeys_alErase h).append (by simp) ?_
  intro q hq hq2
  simp at hq2
  subst hq2
  have := key_mem_iff.mp hq
  rw [alLookup_eraseFs, if_pos rfl] at this
  simp at this

/-- The planner invariant: every bucket binds a path to the primitive acting
on exactly that path, bucket keys are unique, and the create/remove buckets
of each kind are key-disjoint.  It holds for the empty planner and is
preserved by `push`. -/
def fileCreateValB (kv : FsPath × FsPrimitive) : Bool :=
  match kv.2 with
  | FsPrimitive.Link _ t => decide (t = kv.1)
  | FsPrimitive.CopyFile _ t => decide (t = kv.1)
  | _ => false

def fileRemoveValB (kv : FsPath × FsPrimitive) : Bool :=
  match kv.2 with
  | FsPrimitive.RemoveFile t => decide (t = kv.1)
  | _ => false

def dirCreateValB (kv : FsPath × FsPrimitive) : Bool :=
  match kv.2 with
  | FsPrimitive.TryCreateDirs t => decide (t = kv.1)
  | _ => false

def dirRemoveValB (kv : FsPath × FsPrimitive) : Bool :=
  match kv.2 with
  | FsPrimitive.RemoveDir t => decide (t = kv.1)
  | _ => false

def BuilderInv (b : TxBuilder) : Prop :=
  (∀ kv ∈ b.filesToCreate, fileCreateValB kv = true) ∧
    (∀ kv ∈ b.filesToRemove, fileRemoveValB kv = true) ∧
    (∀ kv ∈ b.dirsToCreate, dirCreateValB kv = true) ∧
    (∀ kv ∈ b.dirsToRemove, dirRemoveValB kv = true) ∧
    (b.filesToCreate.map Prod.fst).Nodup ∧
    (b.filesToRemove.map Prod.fst).Nodup ∧
    (b.dirsToCreate.map Prod.fst).Nodup ∧
    (b.dirsToRemove.map Prod.fst).Nodup ∧
    (∀ kv ∈ b.filesToCreate, alLookup b.filesToRemove kv.1 = none) ∧
    (∀ kv ∈ b.dirsToCreate, alLookup b.dirsToRemove kv.1 = none)

instance : DecidablePred BuilderInv := by
  intro b
  unfold BuilderInv
  infer_instance

theorem builderInv_empty : BuilderInv TxBuilder.emptyB := by decide

theorem alInsert_mem_cases {α : Type} {l : List (FsPath × α)} {p : FsPath} {v : α}
    {kv : FsPath × α} (h : kv ∈ alInsert l p v) : (kv ∈ l ∧ kv.1 ≠ p) ∨ kv = (p, v) := by
  unfold alInsert at h
  rcases List.mem_append.mp h with h1 | h1
  · exact Or.inl ⟨alErase_keys_subset h1, alErase_mem_ne h1⟩
  · simp at h1
    exact Or.inr (by obtain ⟨k, w⟩ := kv; simp_all)

theorem builderInv_push {b : TxBuilder} (hb : BuilderInv b) (p : FsPrimitive) :
    BuilderInv (b.push p) := by
  obtain ⟨hfc, hfr, hdc, hdr, nfc, nfr, ndc, ndr, dfil, ddir⟩ := hb
  cases p with
  | Nop => exact ⟨hfc, hfr, hdc, hdr, nfc, nfr, ndc, ndr, dfil, ddir⟩
  | Link o t =>
    refine ⟨?_, ?_, hdc, hdr, nodupKeys_alInsert nfc, nodupKeys_alErase nfr, ndc, ndr, ?_, ddir⟩
    · intro kv hkv
      rcases alInsert_mem_cases hkv with ⟨h1, _⟩ | h1
      · exact hfc kv h1
      · rw [h1]; simp [fileCreateValB]
    · intro kv hkv
      exact hfr kv (alErase_keys_subset hkv)
    · intro kv hkv
      simp only [TxBuilder.push] at hkv ⊢
      rw [alLookup_eraseFs]
      rcases alInsert_mem_cases hkv with ⟨h1, _⟩ | h1
      · rw [dfil kv h1]; simp
      · rw [h1]; simp
  | CopyFile s t =>
    refine ⟨?_, ?_, hdc, hdr, nodupKeys_alInsert nfc, nodupKeys_alErase nfr, ndc, ndr, ?_, ddir⟩
    · intro kv hkv
      rcases alInsert_mem_cases hkv with ⟨h1, _⟩ | h1
      · exact hfc kv h1
      · rw [h1]; simp [fileCreateValB]
    · intro kv hkv
      exact hfr kv (alErase_keys_subset hkv)
    · intro kv hkv
      simp only [TxBuilder.push] at hkv ⊢
      rw [alLookup_eraseFs]
      rcases alInsert_mem_cases hkv with ⟨h1, _⟩ | h1
      · rw [dfil kv h1]; simp
      · rw [h1]; simp
  | RemoveFile t =>
    refine ⟨?_, ?_, hdc, hdr, nodupKeys_alErase nfc, nodupKeys_alInsert nfr, ndc, ndr, ?_, ddir⟩
    · intro kv hkv
      exact hfc kv (alErase_keys_subset hkv)
    · intro kv hkv
      rcases alInsert_mem_cases hkv with ⟨h1, _⟩ | h1
      · exact hfr kv h1
      · rw [h1]; simp [fileRemoveValB]
    · intro kv hkv
      simp only [TxBuilder.push] at hkv ⊢
      have hne := alErase_mem_ne hkv
      rw [alLookup_alInsert, if_neg (fun hc => hne hc.symm)]
      exact dfil kv (alErase_keys_subset hkv)
  | RemoveDir t =>
    refine ⟨hfc, hfr, ?_, ?_, nfc, nfr, nodupKeys_alErase ndc, nodupKeys_alInsert ndr, dfil, ?_⟩
    · intro kv hkv
      exact hdc kv (alErase_keys_subset hkv)
    · intro kv hkv
      rcases alInsert_mem_cases hkv with ⟨h1, _⟩ | h1
      · exact hdr kv h1
      · rw [h1]; simp [dirRemoveValB]
    · intro kv hkv
      simp only [TxBuilder.push] at hkv ⊢
      have hne := alErase_mem_ne hkv
      rw [alLookup_alInsert, if_neg (fun hc => hne hc.symm)]
      exact ddir kv (alErase_keys_subset hkv)
  | TryCreateDirs t =>
    refine ⟨hfc, hfr, ?_, ?_, nfc, nfr, nodupKeys_alInsert ndc, nodupKeys_alErase ndr, dfil, ?_⟩
    · intro kv hkv
      rcases alInsert_mem_cases hkv with ⟨h1, _⟩ | h1
      · exact hdc kv h1
      · rw [h1]; simp [dirCreateValB]
    · intro kv hkv
      exact hdr kv (alErase_keys_subset hkv)
    · intro kv hkv
      simp only [TxBuilder.push] at hkv ⊢
      rw [alLookup_eraseFs]
      rcases alInsert_mem_cases hkv with ⟨h1, _⟩ | h1
      · rw [ddir kv h1]; simp
      · rw [h1]; simp

/-! ## Sorting lemmas -/

theorem insertSorted_perm {α : Type} (key : α → Nat) (x : α) (l : List α) :
    (insertSorted key x l).Perm (x :: l) := by
  induction l with
  | nil => exact List.Perm.refl _
  | cons y ys ih =>
    simp only [insertSorted]
    by_cases h : key x ≤ key y
    · rw [if_pos h]
    · rw [if_neg h]
      exact (ih.cons y).trans (List.Perm.swap x y ys)

theorem sortByKey_perm {α : Type} (key : α → Nat) (l : List α) :
    (sortByKey key l).Perm l := by
  induction l with
  | nil => exact List.Perm.refl _
  | cons x xs ih => exact (insertSorted_perm key x (sortByKey key xs)).trans (ih.cons x)

theorem mem_sortByKey_iff {α : Type} {key : α → Nat} {l : List α} {y : α} :
    y ∈ sortByKey key l ↔ y ∈ l :=
  (sortByKey_perm key l).mem_iff

theorem insertSorted_pairwise {α : Type} {key : α → Nat} {x : α} {l : List α}
    (h : l.Pairwise fun a b => key a ≤ key b) :
    (insertSorted key x l).Pairwise fun a b => key a ≤ key b := by
  induction l with
  | nil => simp [insertSorted]
  | cons y ys ih =>
    simp only [insertSorted]
    by_cases hxy : key x ≤ key y
    · rw [if_pos hxy]
      refine List.Pairwise.cons ?_ h
      intro z hz
      rcases List.mem_cons.mp hz with h1 | h2
      · rw [h1]; exact hxy
      · exact hxy.trans (List.rel_of_pairwise_cons h h2)
    · rw [if_neg hxy]
      have hp := List.pairwise_cons.mp h
      refine List.Pairwise.cons ?_ (ih hp.2)
      intro z hz
      have := (insertSorted_perm key x ys).mem_iff.mp hz
      rcases List.mem_cons.mp this with h1 | h2
      · rw [h1]; omega
      · exact hp.1 z h2

theorem sortByKey_pairwise {α : Type} (key : α → Nat) (l : List α) :
    (sortByKey key l).Pairwise fun a b => key a ≤ key b := by
  induction l with
  | nil => simp [sortByKey]
  | cons x xs ih => exact insertSorted_pairwise ih

/-! ## Membership in a built plan -/

theorem alInsert_self_mem {α : Type} (l : List (FsPath × α)) (p : FsPath) (v : α) :
    (p, v) ∈ alInsert l p v := by
  unfold alInsert
  simp

theorem buildPrims_cases {b : TxBuilder} {x : FsPrimitive} (h : x ∈ b.buildPrims) :
    (∃ kv ∈ b.dirsToCreate, kv.2 = x) ∨ (∃ kv ∈ b.filesToCreate, kv.2 = x) ∨
      (∃ kv ∈ b.filesToRemove, kv.2 = x) ∨ (∃ kv ∈ b.dirsToRemove, kv.2 = x) := by
  unfold TxBuilder.buildPrims at h
  rcases List.mem_append.mp h with h1 | h1
  · rcases List.mem_append.mp h1 with h2 | h2
    · rcases List.mem_append.mp h2 with h3 | h3
      · obtain ⟨kv, hkv, hx⟩ := List.mem_map.mp h3
        exact Or.inl ⟨kv, mem_sortByKey_iff.mp hkv, hx⟩
      · obtain ⟨kv, hkv, hx⟩ := List.mem_map.mp h3
        exact Or.inr (Or.inl ⟨kv, mem_sortByKey_iff.mp hkv, hx⟩)
    · obtain ⟨kv, hkv, hx⟩ := List.mem_map.mp h2
      exact Or.inr (Or.inr (Or.inl
        ⟨kv, mem_sortByKey_iff.mp (List.mem_reverse.mp hkv), hx⟩))
  · obtain ⟨kv, hkv, hx⟩ := List.mem_map.mp h1
    exact Or.inr (Or.inr (Or.inr
      ⟨kv, mem_sortByKey_iff.mp (List.mem_reverse.mp hkv), hx⟩))

theorem buildPrims_of_dirsToRemove {b : TxBuilder} {kv : FsPath × FsPrimitive}
    (h : kv ∈ b.dirsToRemove) : kv.2 ∈ b.buildPrims := by
  unfold TxBuilder.buildPrims
  exact List.mem_append_right _ (List.mem_map.mpr
    ⟨kv, List.mem_reverse.mpr (mem_sortByKey_iff.mpr h), rfl⟩)

theorem buildPrims_of_filesToRemove {b : TxBuilder} {kv : FsPath × FsPrimitive}
    (h : kv ∈ b.filesToRemove) : kv.2 ∈ b.buildPrims := by
  unfold TxBuilder.buildPrims
  exact List.mem_append_left _ (List.mem_append_right _ (List.mem_map.mpr
    ⟨kv, List.mem_reverse.mpr (mem_sortByKey_iff.mpr h), rfl⟩))

theorem of_fileCreateValB {kv : FsPath × FsPrimitive} (h : fileCreateValB kv = true) :
    (∃ s, kv.2 = FsPrimitive.Link s kv.1) ∨ ∃ s, kv.2 = FsPrimitive.CopyFile s kv.1 := by
  unfold fileCreateValB at h
  split at h
  next s t heq => exact Or.inl ⟨s, by rw [heq]; simp at h; rw [h]⟩
  next s t heq => exact Or.inr ⟨s, by rw [heq]; simp at h; rw [h]⟩
  next => simp at h

theorem of_fileRemoveValB {kv : FsPath × FsPrimitive} (h : fileRemoveValB kv = true) :
    kv.2 = FsPrimitive.RemoveFile kv.1 := by
  unfold fileRemoveValB at h
  split at h
  next t heq => rw [heq]; simp at h; rw [h]
  next => simp at h

theorem of_dirCreateValB {kv : FsPath × FsPrimitive} (h : dirCreateValB kv = true) :
    kv.2 = FsPrimitive.TryCreateDirs kv.1 := by
  unfold dirCreateValB at h
  split at h
  next t heq => rw [heq]; simp at h; rw [h]
  next => simp at h

theorem of_dirRemoveValB {kv : FsPath × FsPrimitive} (h : dirRemoveValB kv = true) :
    kv.2 = FsPrimitive.RemoveDir kv.1 := by
  unfold dirRemoveValB at h
  split at h
  next t heq => rw [heq]; simp at h; rw [h]
  next => simp at h

/-! ## Claim C5: planner cancellation -/

/-- **C5, counterexample.** Pushing the directory-creation primitive for
`x/y` and then `RemoveDir x/y` into an empty planner emits `RemoveDir x/y`
(the later push replaces the opposite intent, it does not cancel both), so
the built plan does contain a primitive for that path; likewise
`Link{_,t}` then `RemoveFile t` emits `RemoveFile t`. -/
theorem c5_counterexample :
    TxBuilder.buildPrims ((TxBuilder.emptyB.create_dir ["x", "y"]).remove_dir ["x", "y"]) =
        [FsPrimitive.RemoveDir ["x", "y"]] ∧
      ¬ (∀ x ∈ TxBuilder.buildPrims
            ((TxBuilder.emptyB.create_dir ["x", "y"]).remove_dir ["x", "y"]),
          targetOf x ≠ some ["x", "y"]) ∧
      TxBuilder.buildPrims ((TxBuilder.emptyB.link ["o"] ["t"]).remove_file ["t"]) =
        [FsPrimitive.RemoveFile ["t"]] ∧
      ¬ (∀ x ∈ TxBuilder.buildPrims ((TxBuilder.emptyB.link ["o"] ["t"]).remove_file ["t"]),
          targetOf x ≠ some ["t"]) := by
  refine ⟨by decide, by decide, by decide, by decide⟩

/-- **C5** (amended): for every well-formed planner state, pushing the
directory-creation primitive for `p` and then `RemoveDir p` yields a plan
that contains `RemoveDir p` but no directory-creation primitive for `p`
(the later push replaces the earlier opposite intent rather than both
cancelling); likewise pushing `Link{_,t}` then `RemoveFile t` yields a plan
containing `RemoveFile t` and no file-creation primitive for `t`. -/
theorem c5_amended (b : TxBuilder) (hb : BuilderInv b) (p t o : FsPath) :
    (FsPrimitive.RemoveDir p ∈ ((b.create_dir p).remove_dir p).buildPrims ∧
      FsPrimitive.TryCreateDirs p ∉ ((b.create_dir p).remove_dir p).buildPrims) ∧
    (FsPrimitive.RemoveFile t ∈ ((b.link o t).remove_file t).buildPrims ∧
      ∀ s, FsPrimitive.Link s t ∉ ((b.link o t).remove_file t).buildPrims ∧
        FsPrimitive.CopyFile s t ∉ ((b.link o t).remove_file t).buildPrims) := by
  have hb1 : BuilderInv ((b.create_dir p).remove_dir p) :=
    builderInv_push (builderInv_push hb _) _
  have hb2 : BuilderInv ((b.link o t).remove_file t) :=
    builderInv_push (builderInv_push hb _) _
  obtain ⟨hfc1, hfr1, hdc1, hdr1, _⟩ := hb1
  obtain ⟨hfc2, hfr2, hdc2, hdr2, _⟩ := hb2
  constructor
  · constructor
    · have hmem : (p, FsPrimitive.RemoveDir p) ∈ ((b.create_dir p).remove_dir p).dirsToRemove := by
        simp only [TxBuilder.create_dir, TxBuilder.remove_dir, TxBuilder.push]
        exact alInsert_self_mem _ _ _
      exact buildPrims_of_dirsToRemove hmem
    · intro hmem
      rcases buildPrims_cases hmem with ⟨kv, hkv, hx⟩ | ⟨kv, hkv, hx⟩ | ⟨kv, hkv, hx⟩ | ⟨kv, hkv, hx⟩
      · have hval := of_dirCreateValB (hdc1 kv hkv)
        rw [hx] at hval
        injection hval with hval
        simp only [TxBuilder.create_dir, TxBuilder.remove_dir, TxBuilder.push] at hkv
        exact alErase_mem_ne hkv hval.symm
      · have hval := of_fileCreateValB (hfc1 kv hkv)
        rw [hx] at hval
        rcases hval with ⟨s, hs⟩ | ⟨s, hs⟩ <;> exact FsPrimitive.noConfusion hs
      · have hval := of_fileRemoveValB (hfr1 kv hkv)
        rw [hx] at hval
        exact FsPrimitive.noConfusion hval
      · have hval := of_dirRemoveValB (hdr1 kv hkv)
        rw [hx] at hval
        exact FsPrimitive.noConfusion hval
  · constructor
    · have hmem : (t, FsPrimitive.RemoveFile t) ∈ ((b.link o t).remove_file t).filesToRemove := by
        simp only [TxBuilder.link, TxBuilder.remove_file, TxBuilder.push]
        exact alInsert_self_mem _ _ _
      exact buildPrims_of_filesToRemove hmem
    · intro s
      constructor
      · intro hmem
        rcases buildPrims_cases hmem with ⟨kv, hkv, hx⟩ | ⟨kv, hkv, hx⟩ | ⟨kv, hkv, hx⟩ | ⟨kv, hkv, hx⟩
        · have hval := of_dirCreateValB (hdc2 kv hkv)
          rw [hx] at hval
          exact FsPrimitive.noConfusion hval
        · have hval := of_fileCreateValB (hfc2 kv hkv)
          rw [hx] at hval
          rcases hval with ⟨s2, hs⟩ | ⟨s2, hs⟩
          · injection hs with h1 h2
            subst h2
            simp only [TxBuilder.link, TxBuilder.remove_file, TxBuilder.push] at hkv
            exact alErase_mem_ne hkv rfl
          · exact FsPrimitive.noConfusion hs
        · have hval := of_fileRemoveValB (hfr2 kv hkv)
          rw [hx] at hval
          exact FsPrimitive.noConfusion hval
        · have hval := of_dirRemoveValB (hdr2 kv hkv)
          rw [hx] at hval
          exact FsPrimitive.noConfusion hval
      · intro hmem
        rcases buildPrims_cases hmem with ⟨kv, hkv, hx⟩ | ⟨kv, hkv, hx⟩ | ⟨kv, hkv, hx⟩ | ⟨kv, hkv, hx⟩
        · have hval := of_dirCreateValB (hdc2 kv hkv)
          rw [hx] at hval
          exact FsPrimitive.noConfusion hval
        · have hval := of_fileCreateValB (hfc2 kv hkv)
          rw [hx] at hval
          rcases hval with ⟨s2, hs⟩ | ⟨s2, hs⟩
          · exact FsPrimitive.noConfusion hs
          · injection hs with h1 h2
            subst h2
            simp only [TxBuilder.link, TxBuilder.remove_file, TxBuilder.push] at hkv
            exact alErase_mem_ne hkv rfl
        · have hval := of_fileRemoveValB (hfr2 kv hkv)
          rw [hx] at hval
          exact FsPrimitive.noConfusion hval
        · have hval := of_dirRemoveValB (hdr2 kv hkv)
          rw [hx] at hval
          exact FsPrimitive.noConfusion hval

theorem c5_witness :
    (FsPrimitive.RemoveDir ["a"] ∈
        ((TxBuilder.emptyB.create_dir ["a"]).remove_dir ["a"]).buildPrims ∧
      FsPrimitive.TryCreateDirs ["a"] ∉
        ((TxBuilder.emptyB.create_dir ["a"]).remove_dir ["a"]).buildPrims) :=
  (c5_amended TxBuilder.emptyB (by decide) ["a"] ["b"] ["c"]).1

/-! ## Claim C6: at most one primitive per target path -/

/-- Is the primitive a file-level primitive acting on `p`? -/
def filePrimForB (p : FsPath) (prim : FsPrimitive) : Bool :=
  match prim with
  | FsPrimitive.Link _ t => decide (t = p)
  | FsPrimitive.CopyFile _ t => decide (t = p)
  | FsPrimitive.RemoveFile t => decide (t = p)
  | _ => false

/-- Is the primitive a directory-level primitive acting on `p`? -/
def dirPrimForB (p : FsPath) (prim : FsPrimitive) : Bool :=
  match prim with
  | FsPrimitive.TryCreateDirs t => decide (t = p)
  | FsPrimitive.RemoveDir t => decide (t = p)
  | _ => false

/-- **C6, counterexample.** Pushing the directory-creation primitive for `x`
and then `Link{s,x}` produces a plan with two primitives whose target path is
`x` (one directory-level, one file-level): the planner deduplicates only
within a bucket pair, not across the file/dir buckets. -/
theorem c6_counterexample :
    TxBuilder.buildPrims
        ((TxBuilder.emptyB.push (FsPrimitive.TryCreateDirs ["x"])).push
          (FsPrimitive.Link ["s"] ["x"])) =
      [FsPrimitive.TryCreateDirs ["x"], FsPrimitive.Link ["s"] ["x"]] ∧
    (TxBuilder.buildPrims
        ((TxBuilder.emptyB.push (FsPrimitive.TryCreateDirs ["x"])).push
          (FsPrimitive.Link ["s"] ["x"]))).countP
        (fun prim => decide (targetOf prim = some ["x"])) = 2 := by
  refine ⟨by decide, by decide⟩

theorem countP_key_le_one_of_nodup {α : Type} {l : List (FsPath × α)} {p : FsPath}
    (h : (l.map Prod.fst).Nodup) :
    l.countP (fun kv => decide (kv.1 = p)) ≤ 1 := by
  induction l with
  | nil => simp
  | cons kv rest ih =>
    rw [List.map_cons, List.nodup_cons] at h
    by_cases hk : kv.1 = p
    · rw [List.countP_cons_of_pos _ _ (by simp [hk])]
      have hzero : rest.countP (fun kv => decide (kv.1 = p)) = 0 := by
        rw [List.countP_eq_zero]
        intro kw hkw
        simp only [decide_eq_true_eq]
        intro hkwp
        exact h.1 (List.mem_map.mpr ⟨kw, hkw, by rw [hkwp, hk]⟩)
      omega
    · rw [List.countP_cons_of_neg _ _ (by simp [hk])]
      exact ih h.2

theorem countP_key_zero_of_lookup_none {α : Type} {l : List (FsPath × α)} {p : FsPath}
    (h : alLookup l p = none) :
    l.countP (fun kv => decide (kv.1 = p)) = 0 := by
  rw [List.countP_eq_zero]
  intro kv hkv
  simp only [decide_eq_true_eq]
  intro hkvp
  have := mem_alLookup_isSome (v := kv.2) (l := l) (p := p) (by rw [← hkvp]; exact hkv)
  rw [h] at this
  simp at this

/-- **C6** (amended): in every built plan of a well-formed planner state
there is at most one file-level primitive (`Link`/`CopyFile`/`RemoveFile`)
and at most one directory-level primitive (`TryCreateDirs`/`RemoveDir`) per
target path — within each class opposing intents replace each other and
identical intents deduplicate with the last push's constructor arguments
winning — but a file-level and a directory-level primitive may coexist on
the same path, so the plan can hold two primitives for one path. -/
theorem c6_amended (b : TxBuilder) (hb : BuilderInv b) (p : FsPath) :
    b.buildPrims.countP (filePrimForB p) ≤ 1 ∧
      b.buildPrims.countP (dirPrimForB p) ≤ 1 ∧
      (∀ s1 s2,
        alLookup ((b.push (FsPrimitive.Link s1 p)).push
            (FsPrimitive.Link s2 p)).filesToCreate p = some (FsPrimitive.Link s2 p) ∧
        alLookup ((b.push (FsPrimitive.CopyFile s1 p)).push
            (FsPrimitive.CopyFile s2 p)).filesToCreate p = some (FsPrimitive.CopyFile s2 p)) := by
  obtain ⟨hfc, hfr, hdc, hdr, nfc, nfr, ndc, ndr, dfil, ddir⟩ := hb
  have segcount : ∀ (l : List (FsPath × FsPrimitive)) (f : FsPrimitive → Bool),
      (∀ kv ∈ l, f kv.2 = true → kv.1 = p) →
      ((sortByKey keyLen l).map Prod.snd).countP f ≤
        l.countP (fun kv => decide (kv.1 = p)) := by
    intro l f hf
    rw [List.countP_map, (sortByKey_perm keyLen l).countP_eq]
    exact List.countP_mono_left fun kv hkv hfkv => by simp [hf kv hkv hfkv]
  have segcount_rev : ∀ (l : List (FsPath × FsPrimitive)) (f : FsPrimitive → Bool),
      (∀ kv ∈ l, f kv.2 = true → kv.1 = p) →
      (((sortByKey keyLen l).reverse).map Prod.snd).countP f ≤
        l.countP (fun kv => decide (kv.1 = p)) := by
    intro l f hf
    rw [List.countP_map, ((sortByKey keyLen l).reverse_perm.trans
      (sortByKey_perm keyLen l)).countP_eq]
    exact List.countP_mono_left fun kv hkv hfkv => by simp [hf kv hkv hfkv]
  have segzero : ∀ (l : List (FsPath × FsPrimitive)) (f : FsPrimitive → Bool),
      (∀ kv ∈ l, f kv.2 = false) →
      ((sortByKey keyLen l).map Prod.snd).countP f = 0 := by
    intro l f hf
    rw [List.countP_map, (sortByKey_perm keyLen l).countP_eq, List.countP_eq_zero]
    intro kv hkv
    simp [hf kv hkv]
  have segzero_rev : ∀ (l : List (FsPath × FsPrimitive)) (f : FsPrimitive → Bool),
      (∀ kv ∈ l, f kv.2 = false) →
      (((sortByKey keyLen l).reverse).map Prod.snd).countP f = 0 := by
    intro l f hf
    rw [List.countP_map, ((sortByKey keyLen l).reverse_perm.trans
      (sortByKey_perm keyLen l)).countP_eq, List.countP_eq_zero]
    intro kv hkv
    simp [hf kv hkv]
  refine ⟨?_, ?_, ?_⟩
  · unfold TxBuilder.buildPrims
    rw [List.countP_append, List.countP_append, List.countP_append]
    have h1 : ((sortByKey keyLen b.dirsToCreate).map Prod.snd).countP (filePrimForB p) = 0 := by
      apply segzero
      intro kv hkv
      rw [of_dirCreateValB (hdc kv hkv)]
      simp [filePrimForB]
    have h4 : (((sortByKey keyLen b.dirsToRemove).reverse).map Prod.snd).countP
        (filePrimForB p) = 0 := by
      apply segzero_rev
      intro kv hkv
      rw [of_dirRemoveValB (hdr kv hkv)]
      simp [filePrimForB]
    have h2 : ((sortByKey keyLen b.filesToCreate).map Prod.snd).countP (filePrimForB p) ≤
        b.filesToCreate.countP (fun kv => decide (kv.1 = p)) := by
      apply segcount
      intro kv hkv hf
      rcases of_fileCreateValB (hfc kv hkv) with ⟨s, hs⟩ | ⟨s, hs⟩ <;>
        (rw [hs] at hf; simp [filePrimForB] at hf; exact hf)
    have h3 : (((sortByKey keyLen b.filesToRemove).reverse).map Prod.snd).countP
        (filePrimForB p) ≤ b.filesToRemove.countP (fun kv => decide (kv.1 = p)) := by
      apply segcount_rev
      intro kv hkv hf
      rw [of_fileRemoveValB (hfr kv hkv)] at hf
      simp [filePrimForB] at hf
      exact hf
    cases hlc : alLookup b.filesToCreate p with
    | some v =>
      have hzero : b.filesToRemove.countP (fun kv => decide (kv.1 = p)) = 0 :=
        countP_key_zero_of_lookup_none (dfil (p, v) (alLookup_some_mem hlc))
      have hone := countP_key_le_one_of_nodup (p := p) nfc
      omega
    | none =>
      have hzero : b.filesToCreate.countP (fun kv => decide (kv.1 = p)) = 0 :=
        countP_key_zero_of_lookup_none hlc
      have hone := countP_key_le_one_of_nodup (p := p) nfr
      omega
  · unfold TxBuilder.buildPrims
    rw [List.countP_append, List.countP_append, List.countP_append]
    have h2 : ((sortByKey keyLen b.filesToCreate).map Prod.snd).countP (dirPrimForB p) = 0 := by
      apply segzero
      intro kv hkv
      rcases of_fileCreateValB (hfc kv hkv) with ⟨s, hs⟩ | ⟨s, hs⟩ <;>
        (rw [hs]; simp [dirPrimForB])
    have h3 : (((sortByKey keyLen b.filesToRemove).reverse).map Prod.snd).countP
        (dirPrimForB p) = 0 := by
      apply segzero_rev
      intro kv hkv
      rw [of_fileRemoveValB (hfr kv hkv)]
      simp [dirPrimForB]
    have h1 : ((sortByKey keyLen b.dirsToCreate).map Prod.snd).countP (dirPrimForB p) ≤
        b.dirsToCreate.countP (fun kv => decide (kv.1 = p)) := by
      apply segcount
      intro kv hkv hf
      rw [of_dirCreateValB (hdc kv hkv)] at hf
      simp [dirPrimForB] at hf
      exact hf
    have h4 : (((sortByKey keyLen b.dirsToRemove).reverse).map Prod.snd).countP
        (dirPrimForB p) ≤ b.dirsToRemove.countP (fun kv => decide (kv.1 = p)) := by
      apply segcount_rev
      intro kv hkv hf
      rw [of_dirRemoveValB (hdr kv hkv)] at hf
      simp [dirPrimForB] at hf
      exact hf
    cases hlc : alLookup b.dirsToCreate p with
    | some v =>
      have hzero : b.dirsToRemove.countP (fun kv => decide (kv.1 = p)) = 0 :=
        countP_key_zero_of_lookup_none (ddir (p, v) (alLookup_some_mem hlc))
      have hone := countP_key_le_one_of_nodup (p := p) ndc
      omega
    | none =>
      have hzero : b.dirsToCreate.countP (fun kv => decide (kv.1 = p)) = 0 :=
        countP_key_zero_of_lookup_none hlc
      have hone := countP_key_le_one_of_nodup (p := p) ndr
      omega
  · intro s1 s2
    constructor
    · simp [TxBuilder.push, alLookup_alInsert]
    · simp [TxBuilder.push, alLookup_alInsert]

theorem c6_witness :
    (TxBuilder.buildPrims (TxBuilder.emptyB.push (FsPrimitive.RemoveFile ["f"]))).countP
        (filePrimForB ["f"]) ≤ 1 ∧
      alLookup ((TxBuilder.emptyB.push (FsPrimitive.Link ["s1"] ["f"])).push
          (FsPrimitive.Link ["s2"] ["f"])).filesToCreate ["f"] =
        some (FsPrimitive.Link ["s2"] ["f"]) :=
  ⟨(c6_amended (TxBuilder.emptyB.push (FsPrimitive.RemoveFile ["f"])) (by decide) ["f"]).1,
    ((c6_amended TxBuilder.emptyB builderInv_empty ["f"]).2.2 ["s1"] ["s2"]).1⟩

/-! ## Claim C7: bucket order and the ordering law -/

theorem getElem?_append_cases {α : Type} {l1 l2 : List α} {i : Nat} {x : α}
    (h : (l1 ++ l2)[i]? = some x) :
    (i < l1.length ∧ l1[i]? = some x) ∨ (l1.length ≤ i ∧ l2[i - l1.length]? = some x) := by
  rw [List.getElem?_append] at h
  by_cases hi : i < l1.length
  · exact Or.inl ⟨hi, by rwa [if_pos hi] at h⟩
  · exact Or.inr ⟨Nat.le_of_not_lt hi, by rwa [if_neg hi] at h⟩

theorem getElem?_map_snd {l : List (FsPath × FsPrimitive)} {i : Nat} {x : FsPrimitive}
    (h : (l.map Prod.snd)[i]? = some x) : ∃ kv, l[i]? = some kv ∧ kv.2 = x := by
  rw [List.getElem?_map] at h
  cases hkv : l[i]? with
  | none => rw [hkv] at h; simp at h
  | some kv =>
    rw [hkv] at h
    simp at h
    exact ⟨kv, rfl, h⟩

/-- **C7** (confirmed): the built plan is the four buckets in the order
dirs-to-create, files-to-create, files-to-remove, dirs-to-remove, with the
create buckets sorted by path-component count ascending and the remove
buckets descending; consequently a `TryCreateDirs a` precedes a
`TryCreateDirs c` whenever `a` is a strict prefix of `c`, and a
`RemoveDir c` precedes a `RemoveDir a`. -/
theorem c7_plan_ordering (b : TxBuilder) (hb : BuilderInv b) :
    b.buildPrims =
        (sortByKey keyLen b.dirsToCreate).map Prod.snd ++
          (sortByKey keyLen b.filesToCreate).map Prod.snd ++
          ((sortByKey keyLen b.filesToRemove).reverse).map Prod.snd ++
          ((sortByKey keyLen b.dirsToRemove).reverse).map Prod.snd ∧
      (sortByKey keyLen b.dirsToCreate).Pairwise (fun u v => keyLen u ≤ keyLen v) ∧
      (sortByKey keyLen b.filesToCreate).Pairwise (fun u v => keyLen u ≤ keyLen v) ∧
      ((sortByKey keyLen b.filesToRemove).reverse).Pairwise (fun u v => keyLen v ≤ keyLen u) ∧
      ((sortByKey keyLen b.dirsToRemove).reverse).Pairwise (fun u v => keyLen v ≤ keyLen u) ∧
      (∀ (a c : FsPath) (i j : Nat), pfx a c = true → a ≠ c →
        b.buildPrims[i]? = some (FsPrimitive.TryCreateDirs a) →
        b.buildPrims[j]? = some (FsPrimitive.TryCreateDirs c) → i < j) ∧
      (∀ (a c : FsPath) (i j : Nat), pfx a c = true → a ≠ c →
        b.buildPrims[i]? = some (FsPrimitive.RemoveDir c) →
        b.buildPrims[j]? = some (FsPrimitive.RemoveDir a) → i < j) := by
  obtain ⟨hfc, hfr, hdc, hdr, nfc, nfr, ndc, ndr, dfil, ddir⟩ := hb
  have hdesc3 : ((sortByKey keyLen b.filesToRemove).reverse).Pairwise
      (fun u v => keyLen v ≤ keyLen u) := by
    rw [List.pairwise_reverse]
    exact sortByKey_pairwise keyLen b.filesToRemove
  have hdesc4 : ((sortByKey keyLen b.dirsToRemove).reverse).Pairwise
      (fun u v => keyLen v ≤ keyLen u) := by
    rw [List.pairwise_reverse]
    exact sortByKey_pairwise keyLen b.dirsToRemove
  have hnotTcd2 : ∀ x ∈ (sortByKey keyLen b.filesToCreate).map Prod.snd,
      ∀ z : FsPath, x ≠ FsPrimitive.TryCreateDirs z := by
    intro x hx z
    obtain ⟨kv, hkv, hkx⟩ := List.mem_map.mp hx
    rcases of_fileCreateValB (hfc kv (mem_sortByKey_iff.mp hkv)) with ⟨s, hs⟩ | ⟨s, hs⟩ <;>
      (rw [← hkx, hs]; exact fun hc => FsPrimitive.noConfusion hc)
  have hnotTcd3 : ∀ x ∈ ((sortByKey keyLen b.filesToRemove).reverse).map Prod.snd,
      ∀ z : FsPath, x ≠ FsPrimitive.TryCreateDirs z := by
    intro x hx z
    obtain ⟨kv, hkv, hkx⟩ := List.mem_map.mp hx
    rw [← hkx, of_fileRemoveValB (hfr kv (mem_sortByKey_iff.mp (List.mem_reverse.mp hkv)))]
    exact fun hc => FsPrimitive.noConfusion hc
  have hnotTcd4 : ∀ x ∈ ((sortByKey keyLen b.dirsToRemove).reverse).map Prod.snd,
      ∀ z : FsPath, x ≠ FsPrimitive.TryCreateDirs z := by
    intro x hx z
    obtain ⟨kv, hkv, hkx⟩ := List.mem_map.mp hx
    rw [← hkx, of_dirRemoveValB (hdr kv (mem_sortByKey_iff.mp (List.mem_reverse.mp hkv)))]
    exact fun hc => FsPrimitive.noConfusion hc
  have hnotRd1 : ∀ x ∈ (sortByKey keyLen b.dirsToCreate).map Prod.snd,
      ∀ z : FsPath, x ≠ FsPrimitive.RemoveDir z := by
    intro x hx z
    obtain ⟨kv, hkv, hkx⟩ := List.mem_map.mp hx
    rw [← hkx, of_dirCreateValB (hdc kv (mem_sortByKey_iff.mp hkv))]
    exact fun hc => FsPrimitive.noConfusion hc
  have hnotRd2 : ∀ x ∈ (sortByKey keyLen b.filesToCreate).map Prod.snd,
      ∀ z : FsPath, x ≠ FsPrimitive.RemoveDir z := by
    intro x hx z
    obtain ⟨kv, hkv, hkx⟩ := List.mem_map.mp hx
    rcases of_fileCreateValB (hfc kv (mem_sortByKey_iff.mp hkv)) with ⟨s, hs⟩ | ⟨s, hs⟩ <;>
      (rw [← hkx, hs]; exact fun hc => FsPrimitive.noConfusion hc)
  have hnotRd3 : ∀ x ∈ ((sortByKey keyLen b.filesToRemove).reverse).map Prod.snd,
      ∀ z : FsPath, x ≠ FsPrimitive.RemoveDir z := by
    intro x hx z
    obtain ⟨kv, hkv, hkx⟩ := List.mem_map.mp hx
    rw [← hkx, of_fileRemoveValB (hfr kv (mem_sortByKey_iff.mp (List.mem_reverse.mp hkv)))]
    exact fun hc => FsPrimitive.noConfusion hc
  refine ⟨rfl, sortByKey_pairwise _ _, sortByKey_pairwise _ _, hdesc3, hdesc4, ?_, ?_⟩
  · intro a c i j hpfx hne hi hj
    unfold TxBuilder.buildPrims at hi hj
    have loc : ∀ {i2 : Nat} {z : FsPath},
        (((sortByKey keyLen b.dirsToCreate).map Prod.snd ++
            (sortByKey keyLen b.filesToCreate).map Prod.snd ++
            ((sortByKey keyLen b.filesToRemove).reverse).map Prod.snd ++
            ((sortByKey keyLen b.dirsToRemove).reverse).map Prod.snd)[i2]? =
          some (FsPrimitive.TryCreateDirs z)) →
        i2 < (sortByKey keyLen b.dirsToCreate).length ∧
          ∃ kv, (sortByKey keyLen b.dirsToCreate)[i2]? = some kv ∧ kv.1 = z := by
      intro i2 z h
      rcases getElem?_append_cases h with ⟨h1, h⟩ | ⟨h1, h⟩
      · rcases getElem?_append_cases h with ⟨h2, h⟩ | ⟨h2, h⟩
        · rcases getElem?_append_cases h with ⟨h3, h⟩ | ⟨h3, h⟩
          · obtain ⟨kv, hkv, hkx⟩ := getElem?_map_snd h
            rw [List.length_map] at h3
            refine ⟨h3, kv, hkv, ?_⟩
            have := of_dirCreateValB (hdc kv
              (mem_sortByKey_iff.mp (List.getElem?_mem hkv)))
            rw [hkx] at this
            injection this with h4
            exact h4.symm
          · exact absurd rfl (hnotTcd2 _ (List.getElem?_mem h) z)
        · exact absurd rfl (hnotTcd3 _ (List.getElem?_mem h) z)
      · exact absurd rfl (hnotTcd4 _ (List.getElem?_mem h) z)
    obtain ⟨hilt, kvi, hkvi, hkvi1⟩ := loc hi
    obtain ⟨hjlt, kvj, hkvj, hkvj1⟩ := loc hj
    by_cases hij : i < j
    · exact hij
    · exfalso
      have hlen := pfx_length_lt hpfx hne
      by_cases heq : i = j
      · subst heq
        rw [hkvi] at hkvj
        injection hkvj with hkv
        rw [← hkv] at hkvj1
        rw [hkvi1] at hkvj1
        exact hne hkvj1
      · have hji : j < i := by omega
        have hp := List.pairwise_iff_getElem.mp (sortByKey_pairwise keyLen b.dirsToCreate)
          j i hjlt hilt hji
        obtain ⟨hjlt2, hkvj2⟩ := List.getElem?_eq_some_iff.mp hkvj
        obtain ⟨hilt2, hkvi2⟩ := List.getElem?_eq_some_iff.mp hkvi
        rw [hkvj2, hkvi2] at hp
        unfold keyLen at hp
        rw [hkvi1, hkvj1] at hp
        omega
  · intro a c i j hpfx hne hi hj
    unfold TxBuilder.buildPrims at hi hj
    have loc : ∀ {i2 : Nat} {z : FsPath},
        (((sortByKey keyLen b.dirsToCreate).map Prod.snd ++
            (sortByKey keyLen b.filesToCreate).map Prod.snd ++
            ((sortByKey keyLen b.filesToRemove).reverse).map Prod.snd ++
            ((sortByKey keyLen b.dirsToRemove).reverse).map Prod.snd)[i2]? =
          some (FsPrimitive.RemoveDir z)) →
        ∃ i3, i3 < ((sortByKey keyLen b.dirsToRemove).reverse).length ∧
          i2 = ((sortByKey keyLen b.dirsToCreate).map Prod.snd ++
            (sortByKey keyLen b.filesToCreate).map Prod.snd ++
            ((sortByKey keyLen b.filesToRemove).reverse).map Prod.snd).length + i3 ∧
          ∃ kv, ((sortByKey keyLen b.dirsToRemove).reverse)[i3]? = some kv ∧ kv.1 = z := by
      intro i2 z h
      rcases getElem?_append_cases h with ⟨h1, h⟩ | ⟨h1, h⟩
      · rcases getElem?_append_cases h with ⟨h2, h⟩ | ⟨h2, h⟩
        · rcases getElem?_append_cases h with ⟨h3, h⟩ | ⟨h3, h⟩
          · exact absurd rfl (hnotRd1 _ (List.getElem?_mem h) z)
          · exact absurd rfl (hnotRd2 _ (List.getElem?_mem h) z)
        · exact absurd rfl (hnotRd3 _ (List.getElem?_mem h) z)
      · obtain ⟨kv, hkv, hkx⟩ := getElem?_map_snd h
        refine ⟨i2 - ((sortByKey keyLen b.dirsToCreate).map Prod.snd ++
            (sortByKey keyLen b.filesToCreate).map Prod.snd ++
            ((sortByKey keyLen b.filesToRemove).reverse).map Prod.snd).length,
          (List.getElem?_eq_some_iff.mp hkv).1, by omega, kv, hkv, ?_⟩
        have := of_dirRemoveValB (hdr kv
          (mem_sortByKey_iff.mp (List.mem_reverse.mp (List.getElem?_mem hkv))))
        rw [hkx] at this
        injection this with h4
        exact h4.symm
    obtain ⟨i3, hilt, hieq, kvi, hkvi, hkvi1⟩ := loc hi
    obtain ⟨j3, hjlt, hjeq, kvj, hkvj, hkvj1⟩ := loc hj
    have hlen := pfx_length_lt hpfx hne
    by_cases hij : i3 < j3
    · omega
    · exfalso
      by_cases heq : i3 = j3
      · subst heq
        rw [hkvi] at hkvj
        injection hkvj with hkv
        rw [← hkv, hkvi1] at hkvj1
        exact hne hkvj1.symm
      · have hji : j3 < i3 := by omega
        have hp := List.pairwise_iff_getElem.mp hdesc4 j3 i3 hjlt hilt hji
        obtain ⟨hjlt2, hkvj2⟩ := List.getElem?_eq_some_iff.mp hkvj
        obtain ⟨hilt2, hkvi2⟩ := List.getElem?_eq_some_iff.mp hkvi
        rw [hkvj2, hkvi2] at hp
        unfold keyLen at hp
        rw [hkvi1, hkvj1] at hp
        omega

theorem c7_witness :
    TxBuilder.buildPrims ((TxBuilder.emptyB.create_dir ["a"]).create_dir ["a", "b"]) =
        [FsPrimitive.TryCreateDirs ["a"], FsPrimitive.TryCreateDirs ["a", "b"]] ∧
      (0 : Nat) < 1 :=
  ⟨by decide,
    (c7_plan_ordering ((TxBuilder.emptyB.create_dir ["a"]).create_dir ["a", "b"])
        (by decide)).2.2.2.2.2.1 ["a"] ["a", "b"] 0 1 (by decide) (by decide)
      (by decide) (by decide)⟩

/-! ## The executor (src/transaction/tx_apply.rs) -/

/-- The transaction result (`FsTransactionResult`/`TxResult`): success,
failure with no rollback attempted (`tx_fail_only`, haphazard runs), failure
with successful rollback (`rb_success`), or failure with failed rollback
(`rb_fail`, the fatal case). -/
inductive TxResultM : Type where
  | success
  | txFailOnly (e : String)
  | rbSuccess (e : String)
  | rbFail (e rbe : String)
deriving DecidableEq, Repr

/-- `is_fatal_failure`. -/
def TxResultM.isFatal : TxResultM → Bool
  | TxResultM.rbFail _ _ => true
  | _ => false

/-- `is_success`. -/
def TxResultM.isSuccess : TxResultM → Bool
  | TxResultM.success => true
  | _ => false

/-- The loop of `FsTransaction::rollback_tx` (tx_apply.rs lines 14-27):
apply the collected inverses latest-first (`history.into_iter().rev()` is the
reverse of the push order) with no backup directory, stopping fatally at the
first rollback error. -/
def rollbackLoop : List FsPrimitive → String → Fs → TxResultM × Fs
  | [], e, fs => (TxResultM.rbSuccess e, fs)
  | m :: rest, e, fs =>
    match applyPrim m none "" fs with
    | (Except.ok _, fs1) => rollbackLoop rest e fs1
    | (Except.error rbe, fs1) => (TxResultM.rbFail e rbe, fs1)

/-- `FsTransaction::rollback_tx` (tx_apply.rs lines 9-29). -/
def rollback_tx (history : List FsPrimitive) (txErr : Option String) (fs : Fs) :
    TxResultM × Fs :=
  match txErr with
  | some e => rollbackLoop history.reverse e fs
  | none => (TxResultM.success, fs)

/-- `FsTransaction::run_haphazard` (tx_apply.rs lines 32-51): apply each
primitive with no backup directory, returning `tx_fail_only` at the first
error. -/
def runHaphazard : List FsPrimitive → Fs → TxResultM × Fs
  | [], fs => (TxResultM.success, fs)
  | m :: rest, fs =>
    match applyPrim m none "" fs with
    | (Except.ok _, fs1) => runHaphazard rest fs1
    | (Except.error e, fs1) => (TxResultM.txFailOnly e, fs1)

/-- The forward loop of `run_atomic` (tx_apply.rs lines 66-85): apply with
the backup directory, pushing each returned inverse onto the history
(application order), stopping at the first error. -/
def runAtomicLoop (bd : FsPath) (names : Nat → String) :
    List FsPrimitive → Nat → List FsPrimitive → Fs →
      List FsPrimitive × Option String × Fs
  | [], _, history, fs => (history, none, fs)
  | m :: rest, i, history, fs =>
    match applyPrim m (some bd) (names i) fs with
    | (Except.ok minv, fs1) => runAtomicLoop bd names rest (i + 1) (history ++ [minv]) fs1
    | (Except.error e, fs1) => (history, some e, fs1)

/-- `std::fs::remove_dir_all` of the whole backup directory (the source
ignores its result). -/
def eraseTree (bd : FsPath) (fs : Fs) : Fs :=
  fs.filter fun kv => ! pfx bd kv.1

/-- `FsTransaction::run_atomic` (tx_apply.rs lines 54-101): create the backup
directory, apply the primitives collecting their inverses, roll back on
error, and remove the backup directory exactly when the result is not a
fatal failure.  The per-transaction random backup directory and tokens are
the `bd`/`names` parameters. -/
def runAtomic (mods : List FsPrimitive) (bd : FsPath) (names : Nat → String) (fs : Fs) :
    Except String (TxResultM × Fs) :=
  match createDirAll bd fs with
  | Except.error e => Except.error e
  | Except.ok fs0 =>
    let step := runAtomicLoop bd names mods 0 [] fs0
    let res := rollback_tx step.1 step.2.1 step.2.2
    if res.1.isFatal then Except.ok res
    else Except.ok (res.1, eraseTree bd res.2)

/-- Following the spec's words: run the primitives sequentially against the
backup directory and collect the returned inverses in application order. -/
def forwardSpec (bd : FsPath) (names : Nat → String) :
    List FsPrimitive → Nat → Fs → List FsPrimitive × Option String × Fs
  | [], _, fs => ([], none, fs)
  | m :: rest, i, fs =>
    match applyPrim m (some bd) (names i) fs with
    | (Except.ok minv, fs1) =>
      let r := forwardSpec bd names rest (i + 1) fs1
      (minv :: r.1, r.2.1, r.2.2)
    | (Except.error e, fs1) => ([], some e, fs1)

/-- Following the spec's words: execute an inverse list sequentially with no
backup directory, stopping at the first error. -/
def execInverses : List FsPrimitive → Fs → Option String × Fs
  | [], fs => (none, fs)
  | m :: rest, fs =>
    match applyPrim m none "" fs with
    | (Except.ok _, fs1) => execInverses rest fs1
    | (Except.error e, fs1) => (some e, fs1)

theorem runAtomicLoop_eq_forwardSpec (bd : FsPath) (names : Nat → String) :
    ∀ (mods : List FsPrimitive) (i : Nat) (acc : List FsPrimitive) (fs : Fs),
      runAtomicLoop bd names mods i acc fs =
        (acc ++ (forwardSpec bd names mods i fs).1,
          (forwardSpec bd names mods i fs).2.1, (forwardSpec bd names mods i fs).2.2) := by
  intro mods
  induction mods with
  | nil => intro i acc fs; simp [runAtomicLoop, forwardSpec]
  | cons m rest ih =>
    intro i acc fs
    simp only [runAtomicLoop, forwardSpec]
    cases happ : applyPrim m (some bd) (names i) fs with
    | mk r fs1 =>
      cases r with
      | ok minv => simp [ih (i + 1) (acc ++ [minv]) fs1]
      | error e => simp

theorem rollbackLoop_eq_execInverses :
    ∀ (l : List FsPrimitive) (e : String) (fs : Fs),
      rollbackLoop l e fs =
        (match (execInverses l fs).1 with
          | none => TxResultM.rbSuccess e
          | some re => TxResultM.rbFail e re, (execInverses l fs).2) := by
  intro l
  induction l with
  | nil => intro e fs; simp [rollbackLoop, execInverses]
  | cons m rest ih =>
    intro e fs
    simp only [rollbackLoop, execInverses]
    cases happ : applyPrim m none "" fs with
    | mk r fs1 =>
      cases r with
      | ok minv => simp [ih e fs1]
      | error re => simp

theorem alLookup_eraseTree (bd : FsPath) (fs : Fs) (q : FsPath) :
    alLookup (eraseTree bd fs) q = if pfx bd q = true then none else alLookup fs q := by
  induction fs with
  | nil => by_cases h : pfx bd q <;> simp [eraseTree, alLookup, h]
  | cons kv rest ih =>
    obtain ⟨k, v⟩ := kv
    simp only [eraseTree, List.filter_cons] at ih ⊢
    by_cases hpk : pfx bd k
    · rw [if_neg (by simp [hpk]), ih]
      by_cases hkq : k = q
      · subst hkq
        simp [alLookup, hpk]
      · by_cases hq : pfx bd q <;> simp [alLookup, hkq, hq]
    · rw [if_pos (by simp [hpk])]
      by_cases hkq : k = q
      · subst hkq
        simp [alLookup, hpk]
      · simp only [alLookup, if_neg hkq]
        exact ih

/-! ## Claim C2: atomic failure, reverse rollback, backup-dir removal -/

/-- **C2** (confirmed): when a primitive fails during an atomic run, the
executor applies the inverses collected so far sequentially, in strict
reverse of the order in which their primitives were applied
(`execInverses hist.reverse`), with no backup directory; if every inverse
succeeds the result is the recoverable `rb_success` failure, if any inverse
fails the result is the fatal `rb_fail`, and the backup directory is removed
from the final state exactly when the result is not fatal (and retained when
it is). -/
theorem c2_atomic_rollback (mods : List FsPrimitive) (bd : FsPath) (names : Nat → String)
    (fs fs0 fsf : Fs) (hist : List FsPrimitive) (txErr : Option String)
    (res : TxResultM) (fsr : Fs)
    (h0 : createDirAll bd fs = Except.ok fs0)
    (hfwd : forwardSpec bd names mods 0 fs0 = (hist, txErr, fsf))
    (hrun : runAtomic mods bd names fs = Except.ok (res, fsr)) :
    (txErr = none → res = TxResultM.success ∧ fsr = eraseTree bd fsf) ∧
      (∀ e, txErr = some e →
        ((execInverses hist.reverse fsf).1 = none →
          res = TxResultM.rbSuccess e ∧
            fsr = eraseTree bd (execInverses hist.reverse fsf).2) ∧
        (∀ re, (execInverses hist.reverse fsf).1 = some re →
          res = TxResultM.rbFail e re ∧ fsr = (execInverses hist.reverse fsf).2)) ∧
      (res.isFatal = false → ∀ q, pfx bd q = true → alLookup fsr q = none) := by
  unfold runAtomic at hrun
  simp only [h0] at hrun
  rw [runAtomicLoop_eq_forwardSpec] at hrun
  rw [hfwd] at hrun
  simp only [List.nil_append] at hrun
  cases htx : txErr with
  | none =>
    subst htx
    have hrb : rollback_tx hist none fsf = (TxResultM.success, fsf) := rfl
    rw [hrb] at hrun
    rw [if_neg (by simp [TxResultM.isFatal])] at hrun
    injection hrun with hp
    injection hp with h1 h2
    refine ⟨fun _ => ⟨h1.symm, h2.symm⟩, fun e he => absurd he (by simp), ?_⟩
    intro hnf q hq
    rw [← h2, alLookup_eraseTree, if_pos hq]
  | some e =>
    subst htx
    have hrb : rollback_tx hist (some e) fsf = rollbackLoop hist.reverse e fsf := rfl
    rw [hrb, rollbackLoop_eq_execInverses] at hrun
    cases hres : (execInverses hist.reverse fsf).1 with
    | none =>
      rw [hres] at hrun
      rw [if_neg (by simp [TxResultM.isFatal])] at hrun
      injection hrun with hp
      injection hp with h1 h2
      refine ⟨by simp, fun e2 he2 => ?_, ?_⟩
      · injection he2 with he2
        subst he2
        exact ⟨fun _ => ⟨h1.symm, h2.symm⟩, fun re hre => Option.noConfusion hre⟩
      · intro hnf q hq
        rw [← h2, alLookup_eraseTree, if_pos hq]
    | some re =>
      rw [hres] at hrun
      rw [if_pos (by simp [TxResultM.isFatal])] at hrun
      injection hrun with hp
      injection hp with h1 h2
      refine ⟨by simp, fun e2 he2 => ?_, ?_⟩
      · injection he2 with he2
        subst he2
        refine ⟨fun hn => Option.noConfusion hn, fun re2 hre2 => ?_⟩
        injection hre2 with hre2
        subst hre2
        exact ⟨h1.symm, h2.symm⟩
      · intro hnf q hq
        rw [← h1] at hnf
        simp [TxResultM.isFatal] at hnf

theorem c2_witness :
    TxResultM.rbSuccess "could not link: no parent directory" =
        TxResultM.rbSuccess "could not link: no parent directory" ∧
      ([([], Entry.dir)] : Fs) =
        eraseTree ["bk"]
          (execInverses [FsPrimitive.RemoveDir ["d"]].reverse
            [(["d"], Entry.dir), (["bk"], Entry.dir), ([], Entry.dir)]).2 :=
  ((c2_atomic_rollback
      [FsPrimitive.TryCreateDirs ["d"], FsPrimitive.Link ["s"] ["d", "e", "f"]]
      ["bk"] (fun _ => "n") [([], Entry.dir)] [(["bk"], Entry.dir), ([], Entry.dir)]
      [(["d"], Entry.dir), (["bk"], Entry.dir), ([], Entry.dir)]
      [FsPrimitive.RemoveDir ["d"]] (some "could not link: no parent directory")
      (TxResultM.rbSuccess "could not link: no parent directory") [([], Entry.dir)]
      (by decide) (by decide) (by decide)).2.1
    "could not link: no parent directory" rfl).1 (by decide)

/-! ## Success shapes of the syscalls (toward claim C1) -/

theorem symlinkSyscall_ok {o t : FsPath} {fs fs1 : Fs}
    (h : symlinkSyscall o t fs = Except.ok fs1) :
    alLookup fs t = none ∧ alLookup fs (parentPath t) = some Entry.dir ∧
      fs1 = insertFs fs t (Entry.symlink o) := by
  unfold symlinkSyscall at h
  by_cases hex : (alLookup fs t).isSome
  · rw [if_pos hex] at h; exact absurd h (by simp)
  · rw [if_neg hex] at h
    by_cases hpar : alLookup fs (parentPath t) = some Entry.dir
    · rw [if_pos hpar] at h
      injection h with h
      exact ⟨Option.not_isSome_iff_eq_none.mp hex, hpar, h.symm⟩
    · rw [if_neg hpar] at h; exact absurd h (by simp)

theorem removeFileSyscall_ok {p : FsPath} {fs fs2 : Fs}
    (h : removeFileSyscall p fs = Except.ok fs2) :
    ∃ e, alLookup fs p = some e ∧ e ≠ Entry.dir ∧ fs2 = eraseFs fs p := by
  unfold removeFileSyscall at h
  cases hl : alLookup fs p with
  | none => rw [hl] at h; exact absurd h (by simp)
  | some e =>
    rw [hl] at h
    cases e with
    | dir => exact absurd h (by simp)
    | file c => exact ⟨Entry.file c, rfl, by simp, by injection h with h; exact h.symm⟩
    | symlink t => exact ⟨Entry.symlink t, rfl, by simp, by injection h with h; exact h.symm⟩

theorem removeDirSyscall_ok {p : FsPath} {fs fs1 : Fs}
    (h : removeDirSyscall p fs = Except.ok fs1) :
    alLookup fs p = some Entry.dir ∧ hasChild fs p = false ∧ fs1 = eraseFs fs p := by
  unfold removeDirSyscall at h
  cases hl : alLookup fs p with
  | none => rw [hl] at h; exact absurd h (by simp)
  | some e =>
    rw [hl] at h
    cases e with
    | file c => exact absurd h (by simp)
    | symlink t => exact absurd h (by simp)
    | dir =>
      by_cases hch : hasChild fs p
      · rw [if_pos hch] at h; exact absurd h (by simp)
      · rw [if_neg hch] at h
        injection h with h
        exact ⟨rfl, by simp [hch], h.symm⟩

theorem resolveEntry_of_plain {fs : Fs} {p : FsPath} {e : Entry}
    (h : alLookup fs p = some e) (he : ∀ t, e ≠ Entry.symlink t) :
    resolveEntry fs p = some e := by
  unfold resolveEntry canonicalizeFs maxSymlinkFuel
  rw [resolvePath_lookup_plain h he 39]
  simp [h]

/-- The non-symlink branch of a successful `copy_file_or_symlink`: the source
resolves to a regular file whose contents land at the target. -/
theorem copyFileOrSymlink_ok_nonsym {s t : FsPath} {fs fsx : Fs}
    (h : copyFileOrSymlink s t fs = Except.ok fsx) (hs : isSymlinkFs fs s = false) :
    ∃ c, resolveEntry fs s = some (Entry.file c) ∧
      ∀ q, alLookup fsx q = if t = q then some (Entry.file c) else alLookup fs q := by
  unfold copyFileOrSymlink at h
  by_cases hc0 : (canonicalizeFs fs t).isSome
  · rw [if_pos hc0] at h; exact absurd h (by simp)
  rw [if_neg hc0, if_neg (by simp [hs])] at h
  unfold copyFileSyscall at h
  cases hre : resolveEntry fs s with
  | none => rw [hre] at h; exact absurd h (by simp)
  | some ent0 =>
    rw [hre] at h
    cases ent0 with
    | symlink t2 => exact absurd h (by simp)
    | dir => exact absurd h (by simp)
    | file c =>
      refine ⟨c, rfl, ?_⟩
      simp only at h
      cases hte : alLookup fs t with
      | some e2 =>
        cases e2 with
        | symlink t3 => rw [hte] at h; exact absurd h (by simp)
        | dir => rw [hte] at h; exact absurd h (by simp)
        | file c2 =>
          exfalso
          have hct : canonicalizeFs fs t = some t := by
            unfold canonicalizeFs maxSymlinkFuel
            exact resolvePath_lookup_plain hte (by simp) 39
          rw [hct] at hc0
          simp at hc0
      | none =>
        rw [hte] at h
        by_cases hpar : alLookup fs (parentPath t) = some Entry.dir
        · rw [if_pos hpar] at h
          injection h with h
          subst h
          intro q
          rw [alLookup_insertFs]
          by_cases hq : t = q
          · simp [hq]
          · simp only [if_neg hq]
            unfold eraseFs
            rw [alLookup_eraseFs]
            simp [hq]
        · rw [if_neg hpar] at h; exact absurd h (by simp)

theorem parentPath_ne {p : FsPath} (h : p ≠ []) : parentPath p ≠ p := by
  intro hc
  have := congrArg List.length hc
  rw [parentPath, List.length_dropLast] at this
  cases p with
  | nil => exact h rfl
  | cons x rest => simp at this

theorem hasChild_false_of_no_stored_child {fs : Fs} {p : FsPath}
    (h : ∀ kv ∈ fs, kv.1 = p ∨ parentPath kv.1 ≠ p) : hasChild fs p = false := by
  unfold hasChild
  rw [List.any_eq_false]
  intro kv hkv
  rcases h kv hkv with h1 | h1 <;> simp [h1]

/-! ## Claim C1: self-inverse of primitives -/

/-- **C1, counterexample.** On a filesystem with nothing but the root,
`TryCreateDirs a/b` succeeds (with the backup directory intact and unused)
and creates both `a` and `a/b`, but its returned inverse `RemoveDir a/b`
only removes `a/b`: the pre-state is not restored — the created ancestor
`a` survives outside the backup directory. -/
theorem c1_counterexample :
    WF [([], Entry.dir)] ∧
      applyPrim (FsPrimitive.TryCreateDirs ["a", "b"]) (some ["bk"]) "n" [([], Entry.dir)] =
        (Except.ok (FsPrimitive.RemoveDir ["a", "b"]),
          [(["a", "b"], Entry.dir), (["a"], Entry.dir), ([], Entry.dir)]) ∧
      applyPrim (FsPrimitive.RemoveDir ["a", "b"]) none ""
          [(["a", "b"], Entry.dir), (["a"], Entry.dir), ([], Entry.dir)] =
        (Except.ok (FsPrimitive.TryCreateDirs ["a", "b"]),
          [(["a"], Entry.dir), ([], Entry.dir)]) ∧
      ¬ EqOutside ["bk"] [(["a"], Entry.dir), ([], Entry.dir)] [([], Entry.dir)] := by
  refine ⟨by decide, by decide, by decide, ?_⟩
  intro h
  exact absurd (h ["a"] (by decide)) (by decide)

theorem pfx_strict_dropLast {a p : FsPath} (h : pfx a p = true) (hne : a ≠ p) :
    pfx a p.dropLast = true := by
  obtain ⟨r, rfl⟩ := pfx_iff_exists.mp h
  cases r with
  | nil => simp at hne
  | cons x rest =>
    rw [List.dropLast_append_of_ne_nil a (by simp)]
    exact pfx_append _ _

/-- **C1** (amended): for every primitive whose apply succeeds with a backup
directory — excluding `RemoveFile` of a symlink (restored pointing at the
canonicalized target) and `TryCreateDirs` of a path whose parent is missing
(the inverse removes only the innermost created directory) — applying the
returned inverse to the post-state succeeds and restores the pre-state
outside the backup directory, bit-exactly for file contents. -/
theorem c1_amended (prim : FsPrimitive) (fs : Fs) (bd : FsPath) (bn : String)
    (inv : FsPrimitive) (fs1 : Fs)
    (hwf : WF fs)
    (happly : applyPrim prim (some bd) bn fs = (Except.ok inv, fs1))
    (hrm : ∀ p, prim = FsPrimitive.RemoveFile p → isSymlinkFs fs p = false)
    (htcd : ∀ p, prim = FsPrimitive.TryCreateDirs p → alLookup fs p = none →
      alLookup fs (parentPath p) = some Entry.dir) :
    ∃ inv2 fs2, applyPrim inv none "" fs1 = (Except.ok inv2, fs2) ∧ EqOutside bd fs2 fs := by
  cases prim with
  | Nop =>
    simp only [applyPrim] at happly
    injection happly with h1 h2
    injection h1 with h1
    subst h1
    subst h2
    exact ⟨FsPrimitive.Nop, fs, rfl, fun q _ => rfl⟩
  | Link o t =>
    simp only [applyPrim] at happly
    split at happly
    next e hsl => simp at happly
    next fsx hsl =>
      injection happly with h1 h2
      injection h1 with h1
      subst h1
      subst h2
      obtain ⟨ht, hpar, hfsx⟩ := symlinkSyscall_ok hsl
      subst hfsx
      have hrmv : removeFileSyscall t (insertFs fs t (Entry.symlink o)) =
          Except.ok (eraseFs (insertFs fs t (Entry.symlink o)) t) := by
        simp [removeFileSyscall, alLookup_insertFs]
      refine ⟨FsPrimitive.Nop, eraseFs (insertFs fs t (Entry.symlink o)) t, ?_, ?_⟩
      · simp [applyPrim, hrmv]
      · intro q hq
        unfold eraseFs
        rw [alLookup_eraseFs]
        by_cases hques : t = q
        · subst hques
          simp [ht]
        · rw [if_neg hques, alLookup_insertFs, if_neg hques]
  | CopyFile s t =>
    simp only [applyPrim] at happly
    by_cases hex : (alLookup fs t).isSome
    · rw [if_pos hex] at happly
      simp at happly
    · rw [if_neg hex] at happly
      split at happly
      next e hcp => simp at happly
      next fsx hcp =>
        injection happly with h1 h2
        injection h1 with h1
        subst h1
        subst h2
        have ht : alLookup fs t = none := Option.not_isSome_iff_eq_none.mp hex
        obtain ⟨hct, hcs, ent, hentd, hlook⟩ := copyFileOrSymlink_ok_shape hcp
        have hlt : alLookup fsx t = some ent := by rw [hlook t]; simp
        have hrmv : removeFileSyscall t fsx = Except.ok (eraseFs fsx t) := by
          unfold removeFileSyscall
          rw [hlt]
          cases ent with
          | dir => exact absurd rfl hentd
          | file c => rfl
          | symlink t2 => rfl
        refine ⟨FsPrimitive.Nop, eraseFs fsx t, ?_, ?_⟩
        · simp [applyPrim, hrmv]
        · intro q hq
          unfold eraseFs
          rw [alLookup_eraseFs]
          by_cases hques : t = q
          · subst hques
            simp [ht]
          · rw [if_neg hques, hlook q, if_neg hques]
  | RemoveFile p =>
    have hsym := hrm p rfl
    simp only [applyPrim] at happly
    split at happly
    next e hcp => simp at happly
    next fsx hcp =>
      split at happly
      next e hrmv => simp at happly
      next fs2 hrmv =>
        injection happly with h1 h2
        injection h1 with h1
        subst h1
        subst h2
        obtain ⟨c, hres, hlook⟩ := copyFileOrSymlink_ok_nonsym hcp hsym
        obtain ⟨hct, _, _⟩ := copyFileOrSymlink_ok_shape hcp
        have hne := copyFileOrSymlink_ok_ne hcp
        obtain ⟨e0, he0, he0d, hfs2⟩ := removeFileSyscall_ok hrmv
        subst hfs2
        have hlp : alLookup fs p = some (Entry.file c) := by
          cases hl : alLookup fs p with
          | none =>
            have : resolveEntry fs p = none := by
              unfold resolveEntry canonicalizeFs
              rw [resolvePath_lookup_none hl]
              rfl
            rw [this] at hres
            exact Option.noConfusion hres
          | some e1 =>
            cases e1 with
            | symlink t2 => simp [isSymlinkFs, hl] at hsym
            | dir =>
              have := resolveEntry_of_plain hl (by simp)
              rw [this] at hres
              injection hres with hres
              exact Entry.noConfusion hres
            | file c2 =>
              have := resolveEntry_of_plain hl (by simp)
              rw [this] at hres
              injection hres with hres
              injection hres with hres
              rw [hres]
        have hpne : p ≠ [] := by
          intro hc
          rw [hc, hwf.1] at hlp
          injection hlp with hlp
          exact Entry.noConfusion hlp
        have hparent : alLookup fs (parentPath p) = some Entry.dir := hwf.lookup_parent hlp hpne
        have hbpar : (bd ++ [bn]) ≠ parentPath p := by
          intro hc
          have h2 : canonicalizeFs fs (bd ++ [bn]) = some (bd ++ [bn]) := by
            unfold canonicalizeFs maxSymlinkFuel
            exact resolvePath_lookup_plain (hc ▸ hparent) (by simp) 39
          rw [hct] at h2
          exact Option.noConfusion h2
        have hlb : alLookup fsx (bd ++ [bn]) = some (Entry.file c) := by
          rw [hlook]
          simp
        have hlp1 : alLookup (eraseFs fsx p) p = none := by
          unfold eraseFs
          rw [alLookup_eraseFs]
          simp
        have hlb1 : alLookup (eraseFs fsx p) (bd ++ [bn]) = some (Entry.file c) := by
          unfold eraseFs
          rw [alLookup_eraseFs, if_neg hne]
          exact hlb
        have hcan1 : canonicalizeFs (eraseFs fsx p) p = none := by
          unfold canonicalizeFs
          exact resolvePath_lookup_none hlp1 _
        have hsym1 : isSymlinkFs (eraseFs fsx p) (bd ++ [bn]) = false := by
          unfold isSymlinkFs
          rw [hlb1]
        have hresb : resolveEntry (eraseFs fsx p) (bd ++ [bn]) = some (Entry.file c) :=
          resolveEntry_of_plain hlb1 (by simp)
        have hpar1 : alLookup (eraseFs fsx p) (parentPath p) = some Entry.dir := by
          unfold eraseFs
          rw [alLookup_eraseFs, if_neg (fun hc => (parentPath_ne hpne) hc.symm)]
          rw [hlook, if_neg hbpar]
          exact hparent
        have hcsys : copyFileSyscall (bd ++ [bn]) p (eraseFs fsx p) =
            Except.ok (insertFs (eraseFs (eraseFs fsx p) p) p (Entry.file c)) := by
          simp only [copyFileSyscall, hresb, hlp1]
          rw [if_pos hpar1]
        have hcfos : copyFileOrSymlink (bd ++ [bn]) p (eraseFs fsx p) =
            Except.ok (insertFs (eraseFs (eraseFs fsx p) p) p (Entry.file c)) := by
          unfold copyFileOrSymlink
          rw [hcan1]
          simp only [Option.isSome_none, Bool.false_eq_true, if_false]
          rw [if_neg (by simp [hsym1])]
          exact hcsys
        refine ⟨FsPrimitive.RemoveFile p,
          insertFs (eraseFs (eraseFs fsx p) p) p (Entry.file c), ?_, ?_⟩
        · simp only [applyPrim]
          rw [if_neg (by simp [hlp1])]
          simp [hcfos]
        · intro q hq
          have hqb : q ≠ bd ++ [bn] := by
            intro hc
            rw [hc, pfx_append] at hq
            exact Bool.noConfusion hq
          rw [alLookup_insertFs]
          by_cases hpq : p = q
          · subst hpq
            simp [hlp]
          · rw [if_neg hpq]
            unfold eraseFs
            rw [alLookup_eraseFs, if_neg hpq, alLookup_eraseFs, if_neg hpq]
            rw [hlook q, if_neg (fun hc => hqb hc.symm)]
  | RemoveDir p =>
    simp only [applyPrim] at happly
    split at happly
    next e hrd => simp at happly
    next fsx hrd =>
      injection happly with h1 h2
      injection h1 with h1
      subst h1
      subst h2
      obtain ⟨hdir, hch, hfsx⟩ := removeDirSyscall_ok hrd
      subst hfsx
      have hlp1 : alLookup (eraseFs fs p) p = none := by
        unfold eraseFs
        rw [alLookup_eraseFs]
        simp
      have hanc : ∀ a ∈ ancestorsList p, a ≠ p →
          alLookup (eraseFs fs p) a = some Entry.dir := by
        intro a ha hne2
        unfold eraseFs
        rw [alLookup_eraseFs, if_neg (fun hc => hne2 hc.symm)]
        exact hwf.ancestors_dirs (by simp [hdir]) a ha hne2
      have hcda := createDirAll_missing_one hlp1 hanc
      have hfind : (ancestorsList p).find? (fun a => ! tryExistsB (eraseFs fs p) a) =
          some p := by
        obtain ⟨tl, htl⟩ := ancestorsList_head p
        rw [htl]
        have hte : tryExistsB (eraseFs fs p) p = false := by
          unfold tryExistsB canonicalizeFs
          rw [resolvePath_lookup_none hlp1]
          rfl
        simp [List.find?, hte]
      refine ⟨FsPrimitive.RemoveDir p, insertFs (eraseFs fs p) p Entry.dir, ?_, ?_⟩
      · simp only [applyPrim, hlp1, hfind, hcda]
        rfl
      · intro q hq
        rw [alLookup_insertFs]
        by_cases hpq : p = q
        · subst hpq
          simp [hdir]
        · rw [if_neg hpq]
          unfold eraseFs
          rw [alLookup_eraseFs, if_neg hpq]
  | TryCreateDirs p =>
    by_cases hex : (alLookup fs p).isSome
    · have hcomp : applyPrim (FsPrimitive.TryCreateDirs p) (some bd) bn fs =
          (Except.ok FsPrimitive.Nop, fs) := by
        simp [applyPrim, hex]
      rw [hcomp] at happly
      injection happly with h1 h2
      injection h1 with h1
      subst h1
      subst h2
      exact ⟨FsPrimitive.Nop, fs, rfl, fun q _ => rfl⟩
    · have hnone : alLookup fs p = none := Option.not_isSome_iff_eq_none.mp hex
      have hparent := htcd p rfl hnone
      have hpne : p ≠ [] := by
        intro hc
        rw [hc, hwf.1] at hnone
        exact Option.noConfusion hnone
      have hanc : ∀ a ∈ ancestorsList p, a ≠ p → alLookup fs a = some Entry.dir := by
        intro a ha hne2
        have hstrict := pfx_strict_dropLast (mem_ancestorsList_pfx ha) hne2
        have ha2 : a ∈ ancestorsList (parentPath p) := pfx_mem_ancestorsList hstrict
        by_cases hap : a = parentPath p
        · exact hap ▸ hparent
        · exact hwf.ancestors_dirs (by simp [hparent]) a ha2 hap
      have hcda := createDirAll_missing_one hnone hanc
      have hfind : (ancestorsList p).find? (fun a => ! tryExistsB fs a) = some p := by
        obtain ⟨tl, htl⟩ := ancestorsList_head p
        rw [htl]
        have hte : tryExistsB fs p = false := by
          unfold tryExistsB canonicalizeFs
          rw [resolvePath_lookup_none hnone]
          rfl
        simp [List.find?, hte]
      have hcomp : applyPrim (FsPrimitive.TryCreateDirs p) (some bd) bn fs =
          (Except.ok (FsPrimitive.RemoveDir p), insertFs fs p Entry.dir) := by
        simp only [applyPrim, hnone, hfind, hcda]
        rfl
      rw [hcomp] at happly
      injection happly with h1 h2
      injection h1 with h1
      subst h1
      subst h2
      have hld : alLookup (insertFs fs p Entry.dir) p = some Entry.dir := by
        rw [alLookup_insertFs]
        simp
      have hnochild : hasChild (insertFs fs p Entry.dir) p = false := by
        apply hasChild_false_of_no_stored_child
        intro kv hkv
        rcases List.mem_cons.mp hkv with h1 | h1
        · left
          rw [h1]
        · by_cases hkp : kv.1 = p
          · exact Or.inl hkp
          · right
            intro hpar2
            by_cases hknil : kv.1 = []
            · rw [hknil] at hpar2
              simp only [parentPath, List.dropLast_nil] at hpar2
              rw [← hpar2, hwf.1] at hnone
              exact Option.noConfusion hnone
            · have hpardir := hwf.2 kv h1 hknil
              rw [hpar2] at hpardir
              rw [hpardir] at hnone
              exact Option.noConfusion hnone
      have hrdsys : removeDirSyscall p (insertFs fs p Entry.dir) =
          Except.ok (eraseFs (insertFs fs p Entry.dir) p) := by
        simp [removeDirSyscall, hld, hnochild]
      refine ⟨FsPrimitive.TryCreateDirs p, eraseFs (insertFs fs p Entry.dir) p, ?_, ?_⟩
      · simp [applyPrim, hrdsys]
      · intro q hq
        unfold eraseFs
        rw [alLookup_eraseFs]
        by_cases hpq : p = q
        · subst hpq
          simp [hnone]
        · rw [if_neg hpq, alLookup_insertFs, if_neg hpq]

theorem c1_witness :
    ∃ inv2 fs2,
      applyPrim (FsPrimitive.CopyFile ["bk", "n"] ["f"]) none ""
          [(["bk", "n"], Entry.file [7]), ([], Entry.dir), (["bk"], Entry.dir)] =
        (Except.ok inv2, fs2) ∧
      EqOutside ["bk"] fs2
        [([], Entry.dir), (["bk"], Entry.dir), (["f"], Entry.file [7])] :=
  c1_amended (FsPrimitive.RemoveFile ["f"])
    [([], Entry.dir), (["bk"], Entry.dir), (["f"], Entry.file [7])] ["bk"] "n"
    (FsPrimitive.CopyFile ["bk", "n"] ["f"])
    [(["bk", "n"], Entry.file [7]), ([], Entry.dir), (["bk"], Entry.dir)]
    (by decide) (by decide)
    (by intro p hp; injection hp with hp; subst hp; decide)
    (by intro p hp; exact FsPrimitive.noConfusion hp)

/-! ## Claim C3: the undo transaction of a successful atomic run -/

/-- Modelled from the spec: the transaction result that carries the undo
transaction inside the success case (`TxResult::success(tx_inv)` of
src/transaction/tx_result.rs; the executor code constructing it is missing
from src/ — tx_apply.rs calls a no-argument `success`). -/
inductive TxResultU : Type where
  | success (undo : List FsPrimitive)
  | failure (e : String)
  | fatal (e rbe : String)
deriving DecidableEq, Repr

/-- Modelled from the spec: "On full success, build a fresh undo Transaction
from the collected inverses (via a new Planner, so the undo plan is itself
bucketed/ordered correctly)".  The `Planner` (`TxBuilder`) is the one of
src/transaction/tx_builder.rs; only the glue that pushes the collected
inverses through it is missing from src/. -/
def buildUndoTx (history : List FsPrimitive) : List FsPrimitive :=
  TxBuilder.buildPrims (history.foldl TxBuilder.push TxBuilder.emptyB)

/-- Modelled from the spec: `run_atomic` returning `Success(undo_tx)` — the
control flow of `FsTransaction::run_atomic` (src/transaction/tx_apply.rs)
with the success arm carrying the planner-built undo transaction as the spec
describes (that arm is missing from src/). -/
def runAtomicU (mods : List FsPrimitive) (bd : FsPath) (names : Nat → String) (fs : Fs) :
    Except String (TxResultU × Fs) :=
  match createDirAll bd fs with
  | Except.error e => Except.error e
  | Except.ok fs0 =>
    let step := runAtomicLoop bd names mods 0 [] fs0
    match step.2.1 with
    | none => Except.ok (TxResultU.success (buildUndoTx step.1), eraseTree bd step.2.2)
    | some e =>
      let rb := rollbackLoop step.1.reverse e step.2.2
      match rb.1 with
      | TxResultM.rbFail e2 re => Except.ok (TxResultU.fatal e2 re, rb.2)
      | _ => Except.ok (TxResultU.failure e, eraseTree bd rb.2)

/-- **C3, counterexample.** A successful atomic run of `RemoveFile f`
returns the undo transaction `[CopyFile backup f]`, but the successful run
has already deleted its backup directory, so executing the undo fails and
does not restore the pre-state. -/
theorem c3_counterexample :
    runAtomicU [FsPrimitive.RemoveFile ["f"]] ["bk"] (fun _ => "n")
        [([], Entry.dir), (["f"], Entry.file [3])] =
      Except.ok (TxResultU.success [FsPrimitive.CopyFile ["bk", "n"] ["f"]],
        [([], Entry.dir)]) ∧
    runHaphazard [FsPrimitive.CopyFile ["bk", "n"] ["f"]] [([], Entry.dir)] =
      (TxResultM.txFailOnly "could not copy file: bad source", [([], Entry.dir)]) ∧
    ¬ EqOutside ["bk"] [([], Entry.dir)] [([], Entry.dir), (["f"], Entry.file [3])] := by
  refine ⟨by decide, by decide, ?_⟩
  intro h
  exact absurd (h ["f"] (by decide)) (by decide)

/-- Is the primitive a `Link` or `CopyFile`? -/
def isLinkOrCopyB : FsPrimitive → Bool
  | FsPrimitive.Link _ _ => true
  | FsPrimitive.CopyFile _ _ => true
  | _ => false

/-- A fully successful forward run of `Link`/`CopyFile` primitives collects
exactly the `RemoveFile` inverses of its distinct fresh targets and only
creates non-directory entries at those targets. -/
theorem forwardSpec_links_ok (bd : FsPath) (names : Nat → String) :
    ∀ (mods : List FsPrimitive) (i : Nat) (fs0 : Fs) (hist : List FsPrimitive) (fsf : Fs),
      (∀ m ∈ mods, isLinkOrCopyB m = true) →
      forwardSpec bd names mods i fs0 = (hist, none, fsf) →
      ∃ tgts : List FsPath,
        hist = tgts.map FsPrimitive.RemoveFile ∧
          tgts.Nodup ∧
          (∀ t ∈ tgts, alLookup fs0 t = none ∧
            ∃ ent, ent ≠ Entry.dir ∧ alLookup fsf t = some ent) ∧
          (∀ q, q ∉ tgts → alLookup fsf q = alLookup fs0 q) ∧
          (∀ t ∈ tgts, ∃ m ∈ mods, targetOf m = some t) := by
  intro mods
  induction mods with
  | nil =>
    intro i fs0 hist fsf hall hfwd
    simp only [forwardSpec] at hfwd
    injection hfwd with h1 h2
    injection h2 with h2 h3
    subst h1
    subst h3
    exact ⟨[], rfl, by simp, by simp, by simp, by simp⟩
  | cons m rest ih =>
    intro i fs0 hist fsf hall hfwd
    have hm := hall m (List.mem_cons_self _ _)
    have hrest := fun m2 hm2 => hall m2 (List.mem_cons_of_mem _ hm2)
    -- the applied primitive creates one fresh non-directory entry at its target
    have key : ∀ (t : FsPath) (fsA : Fs) (minv : FsPrimitive),
        applyPrim m (some bd) (names i) fs0 = (Except.ok minv, fsA) →
        targetOf m = some t →
        minv = FsPrimitive.RemoveFile t ∧ alLookup fs0 t = none ∧
          ∃ ent, ent ≠ Entry.dir ∧
            ∀ q, alLookup fsA q = if t = q then some ent else alLookup fs0 q := by
      intro t fsA minv happ htar
      cases m with
      | Link o t2 =>
        injection htar with htar
        subst htar
        simp only [applyPrim] at happ
        split at happ
        next e hsl => simp at happ
        next fsx hsl =>
          injection happ with h1 h2
          injection h1 with h1
          subst h1
          subst h2
          obtain ⟨ht, hpar, hfsx⟩ := symlinkSyscall_ok hsl
          subst hfsx
          refine ⟨rfl, ht, Entry.symlink o, by simp, ?_⟩
          intro q
          rw [alLookup_insertFs]
      | CopyFile s t2 =>
        injection htar with htar
        subst htar
        simp only [applyPrim] at happ
        by_cases hex : (alLookup fs0 t2).isSome
        · rw [if_pos hex] at happ
          simp at happ
        · rw [if_neg hex] at happ
          split at happ
          next e hcp => simp at happ
          next fsx hcp =>
            injection happ with h1 h2
            injection h1 with h1
            subst h1
            subst h2
            obtain ⟨hct, hcs, ent, hentd, hlook⟩ := copyFileOrSymlink_ok_shape hcp
            exact ⟨rfl, Option.not_isSome_iff_eq_none.mp hex, ent, hentd, hlook⟩
      | RemoveFile p => simp [isLinkOrCopyB] at hm
      | RemoveDir p => simp [isLinkOrCopyB] at hm
      | TryCreateDirs p => simp [isLinkOrCopyB] at hm
      | Nop => simp [isLinkOrCopyB] at hm
    have htm : ∃ t, targetOf m = some t := by
      cases m with
      | Link o t2 => exact ⟨t2, rfl⟩
      | CopyFile s t2 => exact ⟨t2, rfl⟩
      | RemoveFile p => simp [isLinkOrCopyB] at hm
      | RemoveDir p => simp [isLinkOrCopyB] at hm
      | TryCreateDirs p => simp [isLinkOrCopyB] at hm
      | Nop => simp [isLinkOrCopyB] at hm
    obtain ⟨t, htar⟩ := htm
    simp only [forwardSpec] at hfwd
    cases happ : applyPrim m (some bd) (names i) fs0 with
    | mk r fsA =>
      cases r with
      | error e =>
        rw [happ] at hfwd
        simp at hfwd
      | ok minv =>
        rw [happ] at hfwd
        simp only at hfwd
        injection hfwd with h1 h2
        injection h2 with h2 h3
        obtain ⟨hminv, ht0, ent, hentd, hlook⟩ := key t fsA minv happ htar
        subst hminv
        cases hr : forwardSpec bd names rest (i + 1) fsA with
        | mk histR pR =>
          obtain ⟨errR, fsfR⟩ := pR
          have hhr : histR = (forwardSpec bd names rest (i + 1) fsA).1 := by rw [hr]
          have herr : errR = (forwardSpec bd names rest (i + 1) fsA).2.1 := by rw [hr]
          have hfsf : fsfR = (forwardSpec bd names rest (i + 1) fsA).2.2 := by rw [hr]
          rw [← hhr] at h1
          rw [← herr] at h2
          rw [← hfsf] at h3
          subst h3
          have herrnone : errR = none := h2
          obtain ⟨tgts, htgts, hnd, hfresh, hout, hsrc⟩ :=
            ih (i + 1) fsA histR fsfR hrest (by rw [hr, herrnone])
          have htnotin : t ∉ tgts := by
            intro hin
            have := (hfresh t hin).1
            rw [hlook t] at this
            simp at this
          refine ⟨t :: tgts, ?_, ?_, ?_, ?_, ?_⟩
          · rw [← h1, htgts]
            rfl
          · exact List.Nodup.cons htnotin hnd
          · intro t2 ht2
            rcases List.mem_cons.mp ht2 with h4 | h4
            · subst h4
              refine ⟨ht0, ent, hentd, ?_⟩
              rw [hout t2 htnotin, hlook t2]
              simp
            · obtain ⟨hA, ent2, hent2d, hres2⟩ := hfresh t2 h4
              refine ⟨?_, ent2, hent2d, hres2⟩
              rw [hlook t2] at hA
              by_cases htq : t = t2
              · rw [if_pos htq] at hA
                exact Option.noConfusion hA
              · rwa [if_neg htq] at hA
          · intro q hq
            have hq1 : q ≠ t := fun hc => hq (hc ▸ List.mem_cons_self _ _)
            have hq2 : q ∉ tgts := fun hc => hq (List.mem_cons_of_mem _ hc)
            rw [hout q hq2, hlook q, if_neg (fun hc => hq1 hc.symm)]
          · intro t2 ht2
            rcases List.mem_cons.mp ht2 with h4 | h4
            · subst h4
              exact ⟨m, List.mem_cons_self _ _, htar⟩
            · obtain ⟨m2, hm2, hm2t⟩ := hsrc t2 h4
              exact ⟨m2, List.mem_cons_of_mem _ hm2, hm2t⟩

theorem builderInv_foldl {b : TxBuilder} (hb : BuilderInv b) (l : List FsPrimitive) :
    BuilderInv (l.foldl TxBuilder.push b) := by
  induction l generalizing b with
  | nil => exact hb
  | cons m rest ih => exact ih (builderInv_push hb m)

theorem foldl_push_removeFiles_aux (tgts : List FsPath) :
    ∀ b : TxBuilder, b.filesToCreate = [] →
      ((tgts.map FsPrimitive.RemoveFile).foldl TxBuilder.push b).filesToCreate = [] ∧
        ((tgts.map FsPrimitive.RemoveFile).foldl TxBuilder.push b).dirsToCreate =
          b.dirsToCreate ∧
        ((tgts.map FsPrimitive.RemoveFile).foldl TxBuilder.push b).dirsToRemove =
          b.dirsToRemove ∧
        ∀ q, (alLookup ((tgts.map FsPrimitive.RemoveFile).foldl
            TxBuilder.push b).filesToRemove q).isSome ↔
          q ∈ tgts ∨ (alLookup b.filesToRemove q).isSome := by
  induction tgts with
  | nil =>
    intro b hb
    exact ⟨hb, rfl, rfl, fun q => by simp⟩
  | cons t rest ih =>
    intro b hb
    rw [List.map_cons, List.foldl_cons]
    have hb2 : (b.push (FsPrimitive.RemoveFile t)).filesToCreate = [] := by
      simp [TxBuilder.push, hb, alErase]
    obtain ⟨h1, h2, h3, h4⟩ := ih (b.push (FsPrimitive.RemoveFile t)) hb2
    refine ⟨h1, h2, h3, ?_⟩
    intro q
    rw [h4 q]
    simp only [TxBuilder.push, alLookup_alInsert]
    by_cases htq : t = q
    · simp [htq]
    · simp only [if_neg htq, List.mem_cons]
      constructor
      · rintro (h5 | h5)
        · exact Or.inl (Or.inr h5)
        · exact Or.inr h5
      · rintro ((h5 | h5) | h5)
        · exact absurd h5.symm htq
        · exact Or.inl h5
        · exact Or.inr h5

theorem map_snd_eq_removeFile {l : List (FsPath × FsPrimitive)}
    (h : ∀ kv ∈ l, kv.2 = FsPrimitive.RemoveFile kv.1) :
    l.map Prod.snd = (l.map Prod.fst).map FsPrimitive.RemoveFile := by
  induction l with
  | nil => rfl
  | cons kv rest ih =>
    simp only [List.map_cons]
    rw [h kv (List.mem_cons_self _ _), ih fun kw hkw => h kw (List.mem_cons_of_mem _ hkw)]

theorem buildUndoTx_removeFiles (tgts : List FsPath) :
    ∃ tgts2 : List FsPath,
      buildUndoTx (tgts.map FsPrimitive.RemoveFile) = tgts2.map FsPrimitive.RemoveFile ∧
        tgts2.Nodup ∧ ∀ t, t ∈ tgts2 ↔ t ∈ tgts := by
  obtain ⟨he1, he2, he3, hmemiff⟩ := foldl_push_removeFiles_aux tgts TxBuilder.emptyB rfl
  have hinv := builderInv_foldl builderInv_empty (tgts.map FsPrimitive.RemoveFile)
  obtain ⟨_, hfr, _, _, _, nfr, _, _, _, _⟩ := hinv
  refine ⟨(((sortByKey keyLen ((tgts.map FsPrimitive.RemoveFile).foldl
      TxBuilder.push TxBuilder.emptyB).filesToRemove).reverse).map Prod.fst), ?_, ?_, ?_⟩
  · unfold buildUndoTx TxBuilder.buildPrims
    rw [he1, he2, he3]
    show [] ++ [] ++ _ ++ [] = _
    rw [List.append_nil, List.nil_append, List.nil_append]
    apply map_snd_eq_removeFile
    intro kv hkv
    exact of_fileRemoveValB (hfr kv (mem_sortByKey_iff.mp (List.mem_reverse.mp hkv)))
  · have hperm : (((sortByKey keyLen ((tgts.map FsPrimitive.RemoveFile).foldl
        TxBuilder.push TxBuilder.emptyB).filesToRemove).reverse).map Prod.fst).Perm
        ((((tgts.map FsPrimitive.RemoveFile).foldl
          TxBuilder.push TxBuilder.emptyB).filesToRemove).map Prod.fst) :=
      ((List.reverse_perm _).trans (sortByKey_perm _ _)).map Prod.fst
    exact hperm.nodup_iff.mpr nfr
  · intro t
    have hperm : (((sortByKey keyLen ((tgts.map FsPrimitive.RemoveFile).foldl
        TxBuilder.push TxBuilder.emptyB).filesToRemove).reverse).map Prod.fst).Perm
        ((((tgts.map FsPrimitive.RemoveFile).foldl
          TxBuilder.push TxBuilder.emptyB).filesToRemove).map Prod.fst) :=
      ((List.reverse_perm _).trans (sortByKey_perm _ _)).map Prod.fst
    rw [hperm.mem_iff, key_mem_iff, hmemiff t]
    simp [TxBuilder.emptyB, alLookup]

theorem runHaphazard_removes (tgts : List FsPath) :
    ∀ g : Fs, tgts.Nodup →
      (∀ t ∈ tgts, ∃ e, alLookup g t = some e ∧ e ≠ Entry.dir) →
      ∃ g2, runHaphazard (tgts.map FsPrimitive.RemoveFile) g = (TxResultM.success, g2) ∧
        ∀ q, alLookup g2 q = if q ∈ tgts then none else alLookup g q := by
  induction tgts with
  | nil =>
    intro g _ _
    exact ⟨g, rfl, fun q => by simp⟩
  | cons t rest ih =>
    intro g hnd hpres
    obtain ⟨e, he, hed⟩ := hpres t (List.mem_cons_self _ _)
    have hrmv : removeFileSyscall t g = Except.ok (eraseFs g t) := by
      unfold removeFileSyscall
      rw [he]
      cases e with
      | dir => exact absurd rfl hed
      | file c => rfl
      | symlink t2 => rfl
    have hnd2 := List.nodup_cons.mp hnd
    have hpre : ∀ t2 ∈ rest, ∃ e2, alLookup (eraseFs g t) t2 = some e2 ∧ e2 ≠ Entry.dir := by
      intro t2 ht2
      obtain ⟨e2, he2, he2d⟩ := hpres t2 (List.mem_cons_of_mem _ ht2)
      refine ⟨e2, ?_, he2d⟩
      unfold eraseFs
      rw [alLookup_eraseFs, if_neg (fun hc : t = t2 => hnd2.1 (by rw [hc]; exact ht2))]
      exact he2
    obtain ⟨g2, hrun, hg2⟩ := ih (eraseFs g t) hnd2.2 hpre
    refine ⟨g2, ?_, ?_⟩
    · rw [List.map_cons]
      show runHaphazard _ _ = _
      simp only [runHaphazard, applyPrim, hrmv]
      exact hrun
    · intro q
      rw [hg2 q]
      by_cases hqr : q ∈ rest
      · simp [hqr, List.mem_cons]
      · simp only [if_neg hqr]
        by_cases hqt : q = t
        · subst hqt
          unfold eraseFs
          rw [alLookup_eraseFs, if_pos rfl]
          simp
        · unfold eraseFs
          rw [alLookup_eraseFs, if_neg (fun hc => hqt hc.symm)]
          rw [if_neg (by simp [hqt, hqr])]

theorem createDirAll_outside_self {fs fs0 : Fs} {bd : FsPath}
    (hwf : WF fs) (hpar : alLookup fs (parentPath bd) = some Entry.dir)
    (h : createDirAll bd fs = Except.ok fs0) :
    ∀ q, q ≠ bd → alLookup fs0 q = alLookup fs q := by
  unfold createDirAll at h
  intro q hq
  by_cases hmem : q ∈ (ancestorsList bd).reverse
  · rw [List.mem_reverse] at hmem
    have hdir : alLookup fs q = some Entry.dir := by
      by_cases hqpar : q = parentPath bd
      · exact hqpar ▸ hpar
      · have hstrict := pfx_strict_dropLast (mem_ancestorsList_pfx hmem) hq
        exact hwf.ancestors_dirs (Option.isSome_iff_exists.mpr ⟨Entry.dir, hpar⟩) q
          (pfx_mem_ancestorsList hstrict) hqpar
    rw [createDirAllAux_preserves_some h hdir, hdir]
  · exact createDirAllAux_outside h q hmem

/-- **C3** (amended): on full success the executor (success path modelled
from the spec) returns the planner-built undo transaction of the collected
inverses inside the success result; executing that undo haphazardly undoes
the run for transactions of `Link` and `CopyFile` primitives (whose inverses
need no backup files) with targets outside the backup directory. -/
theorem c3_amended (mods : List FsPrimitive) (bd : FsPath) (names : Nat → String)
    (fs : Fs) (undo : List FsPrimitive) (fs1 : Fs)
    (hwf : WF fs)
    (hmods : ∀ m ∈ mods, isLinkOrCopyB m = true)
    (htgt : ∀ m ∈ mods, (match targetOf m with
      | some t => ! pfx bd t
      | none => true) = true)
    (hbd : alLookup fs (parentPath bd) = some Entry.dir)
    (hrun : runAtomicU mods bd names fs = Except.ok (TxResultU.success undo, fs1)) :
    ∃ fs2, runHaphazard undo fs1 = (TxResultM.success, fs2) ∧ EqOutside bd fs2 fs := by
  cases h0 : createDirAll bd fs with
  | error e =>
    unfold runAtomicU at hrun
    rw [h0] at hrun
    exact absurd hrun (by simp)
  | ok fs0 =>
    cases hfw : forwardSpec bd names mods 0 fs0 with
    | mk hist p2 =>
      obtain ⟨txErr, fsf⟩ := p2
      have hstep : runAtomicLoop bd names mods 0 [] fs0 = (hist, txErr, fsf) := by
        rw [runAtomicLoop_eq_forwardSpec, hfw]
        simp
      cases txErr with
      | some e =>
        cases hrb : rollbackLoop hist.reverse e fsf with
        | mk rbres rbfs =>
          cases rbres with
          | success =>
            have hcomp : runAtomicU mods bd names fs =
                Except.ok (TxResultU.failure e, eraseTree bd rbfs) := by
              simp [runAtomicU, h0, hstep, hrb]
            rw [hcomp] at hrun
            simp at hrun
          | txFailOnly e2 =>
            have hcomp : runAtomicU mods bd names fs =
                Except.ok (TxResultU.failure e, eraseTree bd rbfs) := by
              simp [runAtomicU, h0, hstep, hrb]
            rw [hcomp] at hrun
            simp at hrun
          | rbSuccess e2 =>
            have hcomp : runAtomicU mods bd names fs =
                Except.ok (TxResultU.failure e, eraseTree bd rbfs) := by
              simp [runAtomicU, h0, hstep, hrb]
            rw [hcomp] at hrun
            simp at hrun
          | rbFail e2 re =>
            have hcomp : runAtomicU mods bd names fs =
                Except.ok (TxResultU.fatal e2 re, rbfs) := by
              simp [runAtomicU, h0, hstep, hrb]
            rw [hcomp] at hrun
            simp at hrun
      | none =>
        have hcomp : runAtomicU mods bd names fs =
            Except.ok (TxResultU.success (buildUndoTx hist), eraseTree bd fsf) := by
          simp [runAtomicU, h0, hstep]
        rw [hcomp] at hrun
        injection hrun with h1
        injection h1 with h1 h2
        injection h1 with h1
        subst h1
        subst h2
        obtain ⟨tgts, htgts, hnd, hfresh, hout, hsrc⟩ :=
          forwardSpec_links_ok bd names mods 0 fs0 hist fsf hmods hfw
        obtain ⟨tgts2, hplan, hnd2, hmem2⟩ := buildUndoTx_removeFiles tgts
        have hfs0out : ∀ q, pfx bd q = false → alLookup fs0 q = alLookup fs q := by
          intro q hq
          refine createDirAll_outside_self hwf hbd h0 q ?_
          intro hc
          rw [hc, pfx_refl] at hq
          exact Bool.noConfusion hq
        have htgtspfx : ∀ t ∈ tgts, pfx bd t = false := by
          intro t ht
          obtain ⟨m, hm, hmt⟩ := hsrc t ht
          have h := htgt m hm
          rw [hmt] at h
          simp at h
          exact h
        have hpres : ∀ t ∈ tgts2,
            ∃ e, alLookup (eraseTree bd fsf) t = some e ∧ e ≠ Entry.dir := by
          intro t ht
          have ht0 := (hmem2 t).mp ht
          obtain ⟨_, ent, hentd, hres⟩ := hfresh t ht0
          refine ⟨ent, ?_, hentd⟩
          rw [alLookup_eraseTree, if_neg (by simp [htgtspfx t ht0])]
          exact hres
        obtain ⟨g2, hrunH, hg2⟩ := runHaphazard_removes tgts2 (eraseTree bd fsf) hnd2 hpres
        refine ⟨g2, ?_, ?_⟩
        · rw [htgts, hplan]
          exact hrunH
        · intro q hq
          rw [hg2 q]
          by_cases hqt : q ∈ tgts2
          · rw [if_pos hqt]
            have hq0 := (hmem2 q).mp hqt
            have hnone0 := (hfresh q hq0).1
            rw [← hfs0out q hq]
            exact hnone0.symm
          · rw [if_neg hqt]
            rw [alLookup_eraseTree, if_neg (by simp [hq])]
            have hq0 : q ∉ tgts := fun hc => hqt ((hmem2 q).mpr hc)
            rw [hout q hq0]
            exact hfs0out q hq

theorem c3_witness :
    ∃ fs2,
      runHaphazard [FsPrimitive.RemoveFile ["a"]]
          [(["a"], Entry.symlink ["src"]), ([], Entry.dir)] =
        (TxResultM.success, fs2) ∧
      EqOutside ["bk"] fs2 [([], Entry.dir)] :=
  c3_amended [FsPrimitive.Link ["src"] ["a"]] ["bk"] (fun _ => "n") [([], Entry.dir)]
    [FsPrimitive.RemoveFile ["a"]] [(["a"], Entry.symlink ["src"]), ([], Entry.dir)]
    (by decide) (by decide) (by decide) (by decide) (by decide)

/-! ## Claim C8: workflow rollback of the TxProcessor -/

/-- Modelled from the spec: `Transaction::run_haphazard` (§4.5) returns
`Result<(), Error>` — apply each primitive in order with no backup directory
and return the first error.  (`Transaction`'s executor methods are missing
from src/; only `FsTransaction`'s are present.) -/
def runHaphazardTx : List FsPrimitive → Fs → Option String × Fs
  | [], fs => (none, fs)
  | m :: rest, fs =>
    match applyPrim m none "" fs with
    | (Except.ok _, fs1) => runHaphazardTx rest fs1
    | (Except.error e, fs1) => (some e, fs1)

/-- The outcome of a processor call: normal return, error return, or a
process-terminating panic. -/
inductive ProcOutcome : Type where
  | ok
  | err (e : String)
  | panic (e : String)
deriving DecidableEq, Repr

/-- `TxProcessor` (src/transaction/tx_processor.rs): the growing list of
undo transactions of previously committed runs (`name`/`verbose` only feed
printing). -/
structure TxProcessor where
  processed : List (List FsPrimitive)
deriving DecidableEq, Repr

/-- `TxProcessor::run_optional` (src/transaction/tx_processor.rs lines
22-33), over the spec-modelled atomic executor: panic on a fatal failure,
push the returned undo transaction on success, return the error otherwise. -/
def runOptional (tx : List FsPrimitive) (bd : FsPath) (names : Nat → String)
    (st : TxProcessor) (fs : Fs) : ProcOutcome × TxProcessor × Fs :=
  match runAtomicU tx bd names fs with
  | Except.error e => (ProcOutcome.err e, st, fs)
  | Except.ok (TxResultU.fatal _ _, fs1) =>
    (ProcOutcome.panic "Fatal failure: Filesystem could not be restored.", st, fs1)
  | Except.ok (TxResultU.failure e, fs1) => (ProcOutcome.err e, st, fs1)
  | Except.ok (TxResultU.success undo, fs1) =>
    (ProcOutcome.ok, ⟨st.processed ++ [undo]⟩, fs1)

/-- The loop of `TxProcessor::rollback` (lines 47-55): the drained undo
transactions are visited newest-first (`drain(..).rev()`), each run
haphazardly; the `.expect` panics at the first failure. -/
def rollbackProcLoop : List (List FsPrimitive) → Fs → Option String × Fs
  | [], fs => (none, fs)
  | u :: rest, fs =>
    match runHaphazardTx u fs with
    | (none, fs1) => rollbackProcLoop rest fs1
    | (some e, fs1) => (some e, fs1)

/-- `TxProcessor::rollback`: drain `processed` (leaving it empty) and run
the loop on the reversed list. -/
def rollbackProc (st : TxProcessor) (fs : Fs) : Option String × TxProcessor × Fs :=
  let r := rollbackProcLoop st.processed.reverse fs
  (r.1, ⟨[]⟩, r.2)

/-- `TxProcessor::run_required` (lines 36-45). -/
def runRequired (tx : List FsPrimitive) (bd : FsPath) (names : Nat → String)
    (st : TxProcessor) (fs : Fs) : ProcOutcome × TxProcessor × Fs :=
  match runOptional tx bd names st fs with
  | (ProcOutcome.err e, st1, fs1) =>
    let rb := rollbackProc st1 fs1
    match rb.1 with
    | some re => (ProcOutcome.panic re, rb.2.1, rb.2.2)
    | none => (ProcOutcome.err e, rb.2.1, rb.2.2)
  | other => other

/-- **C8** (confirmed, spec-modelled `Transaction` runners): when the atomic
run of `tx` fails non-fatally, `run_required` drains the processed list and
runs each collected undo transaction haphazardly in reverse of commit order
(`st.processed.reverse`), returning the original error if all succeed and a
panic (fatal) as soon as any rollback run fails; commits append to
`processed`, so commit order is call order. -/
theorem c8_run_required (tx : List FsPrimitive) (bd : FsPath) (names : Nat → String)
    (st : TxProcessor) (fs : Fs) (e : String) (fs1 : Fs)
    (hrun : runAtomicU tx bd names fs = Except.ok (TxResultU.failure e, fs1)) :
    (∀ fs2, rollbackProcLoop st.processed.reverse fs1 = (none, fs2) →
      runRequired tx bd names st fs = (ProcOutcome.err e, ⟨[]⟩, fs2)) ∧
      (∀ re fs2, rollbackProcLoop st.processed.reverse fs1 = (some re, fs2) →
        runRequired tx bd names st fs = (ProcOutcome.panic re, ⟨[]⟩, fs2)) ∧
      (∀ (st0 : TxProcessor) (tx2 : List FsPrimitive) (bd2 : FsPath)
          (names2 : Nat → String) (fsA : Fs) (undo : List FsPrimitive) (fsB : Fs),
        runAtomicU tx2 bd2 names2 fsA = Except.ok (TxResultU.success undo, fsB) →
        runOptional tx2 bd2 names2 st0 fsA =
          (ProcOutcome.ok, ⟨st0.processed ++ [undo]⟩, fsB)) := by
  refine ⟨?_, ?_, ?_⟩
  · intro fs2 hrb
    simp [runRequired, runOptional, hrun, rollbackProc, hrb]
  · intro re fs2 hrb
    simp [runRequired, runOptional, hrun, rollbackProc, hrb]
  · intro st0 tx2 bd2 names2 fsA undo fsB hsucc
    simp [runOptional, hsucc]

theorem c8_witness :
    runRequired [FsPrimitive.CopyFile ["s"] ["t"]] ["bk"] (fun _ => "n")
        ⟨[[FsPrimitive.TryCreateDirs ["z"]]]⟩ [([], Entry.dir), (["t"], Entry.file [1])] =
      (ProcOutcome.err "file already exists", ⟨[]⟩,
        [(["z"], Entry.dir), ([], Entry.dir), (["t"], Entry.file [1])]) :=
  (c8_run_required [FsPrimitive.CopyFile ["s"] ["t"]] ["bk"] (fun _ => "n")
      ⟨[[FsPrimitive.TryCreateDirs ["z"]]]⟩ [([], Entry.dir), (["t"], Entry.file [1])]
      "file already exists" [([], Entry.dir), (["t"], Entry.file [1])]
      (by decide)).1
    [(["z"], Entry.dir), ([], Entry.dir), (["t"], Entry.file [1])] (by decide)
